import Mathlib

/-!
Verification of the frontmatter-driven markdown dialect converters of the
AIConfig repository (src/tools/agents2rules.py, src/tools/instructions2rules.py,
src/tools/prompts2commands.py).

Python strings are modelled as `List Char`; Python values produced by the
restricted YAML-value parser are modelled by the inductive type `Py`.
Every definition is a shallow embedding of the corresponding Python function,
translated line by line from the source.
-/

set_option maxHeartbeats 2000000

namespace AIConfig

/-- Model of the Python values that `parse_yaml_value` can produce:
strings, integers, booleans, `None`, and (nested) lists. -/
inductive Py where
  | str : List Char → Py
  | int : Int → Py
  | bool : Bool → Py
  | none : Py
  | list : List Py → Py

mutual

/-- Boolean equality on `Py`. -/
def Py.beq : Py → Py → Bool
  | Py.str a, Py.str b => a == b
  | Py.int a, Py.int b => a == b
  | Py.bool a, Py.bool b => a == b
  | Py.none, Py.none => true
  | Py.list as, Py.list bs => Py.beqList as bs
  | _, _ => false

/-- Boolean equality on lists of `Py`. -/
def Py.beqList : List Py → List Py → Bool
  | [], [] => true
  | a :: as, b :: bs => Py.beq a b && Py.beqList as bs
  | _, _ => false

end

mutual

theorem Py.beq_iff : ∀ a b : Py, Py.beq a b = true ↔ a = b
  | Py.str a, Py.str b => by simp [Py.beq]
  | Py.str _, Py.int _ => by simp [Py.beq]
  | Py.str _, Py.bool _ => by simp [Py.beq]
  | Py.str _, Py.none => by simp [Py.beq]
  | Py.str _, Py.list _ => by simp [Py.beq]
  | Py.int _, Py.str _ => by simp [Py.beq]
  | Py.int a, Py.int b => by simp [Py.beq]
  | Py.int _, Py.bool _ => by simp [Py.beq]
  | Py.int _, Py.none => by simp [Py.beq]
  | Py.int _, Py.list _ => by simp [Py.beq]
  | Py.bool _, Py.str _ => by simp [Py.beq]
  | Py.bool _, Py.int _ => by simp [Py.beq]
  | Py.bool a, Py.bool b => by simp [Py.beq]
  | Py.bool _, Py.none => by simp [Py.beq]
  | Py.bool _, Py.list _ => by simp [Py.beq]
  | Py.none, Py.str _ => by simp [Py.beq]
  | Py.none, Py.int _ => by simp [Py.beq]
  | Py.none, Py.bool _ => by simp [Py.beq]
  | Py.none, Py.none => by simp [Py.beq]
  | Py.none, Py.list _ => by simp [Py.beq]
  | Py.list _, Py.str _ => by simp [Py.beq]
  | Py.list _, Py.int _ => by simp [Py.beq]
  | Py.list _, Py.bool _ => by simp [Py.beq]
  | Py.list _, Py.none => by simp [Py.beq]
  | Py.list as, Py.list bs => by
    simp only [Py.beq, Py.list.injEq]
    exact Py.beqList_iff as bs

theorem Py.beqList_iff : ∀ as bs : List Py, Py.beqList as bs = true ↔ as = bs
  | [], [] => by simp [Py.beqList]
  | [], _ :: _ => by simp [Py.beqList]
  | _ :: _, [] => by simp [Py.beqList]
  | a :: as, b :: bs => by
    simp only [Py.beqList, Bool.and_eq_true, List.cons.injEq]
    exact and_congr (Py.beq_iff a b) (Py.beqList_iff as bs)

end

instance : DecidableEq Py := fun a b => decidable_of_iff _ (Py.beq_iff a b)

/-- The line-terminator characters recognised by Python `str.splitlines`. -/
def isLineTerm (c : Char) : Bool :=
  c = '\n' || c = '\r' || c = '\x0b' || c = '\x0c' ||
  c = '\x1c' || c = '\x1d' || c = '\x1e' || c = '\u0085' || c = '\u2028' || c = '\u2029'

/-- The whitespace characters stripped by Python `str.strip()` (ASCII subset). -/
def isPySpace (c : Char) : Bool :=
  c = ' ' || c = '\t' || c = '\n' || c = '\r' || c = '\x0b' || c = '\x0c'

/-- Python `str.strip()`. -/
def pyStrip (s : List Char) : List Char :=
  ((s.dropWhile isPySpace).reverse.dropWhile isPySpace).reverse

/-- Python `str.rstrip()`. -/
def pyRstrip (s : List Char) : List Char :=
  (s.reverse.dropWhile isPySpace).reverse

/-- Prepend a character to the first block of a block list (used to build
the current line/segment during a scan). -/
def consHead (c : Char) : List (List Char) → List (List Char)
  | [] => [[c]]
  | h :: t => (c :: h) :: t

/-- Python `str.splitlines()` (no `keepends`): split at every line
terminator, treating `\r\n` as a single terminator, and drop a final
terminator without adding an empty trailing line. -/
def pySplitlines : List Char → List (List Char)
  | [] => []
  | '\r' :: '\n' :: rest => [] :: pySplitlines rest
  | c :: rest =>
    if isLineTerm c then [] :: pySplitlines rest else consHead c (pySplitlines rest)

/-- Python `sep.join(blocks)`. -/
def joinWith (sep : List Char) : List (List Char) → List Char
  | [] => []
  | [x] => x
  | x :: y :: t => x ++ sep ++ joinWith sep (y :: t)

/-- Python `"\n".join(blocks)`. -/
def joinLF (L : List (List Char)) : List Char := joinWith ['\n'] L

/-- Python `s.split(c, 1)` for a character separator that occurs in `s`:
the part before the first occurrence and the part after it. -/
def splitFirst (c : Char) : List Char → List Char × List Char
  | [] => ([], [])
  | x :: rest =>
    if x = c then ([], rest)
    else
      let p := splitFirst c rest
      (x :: p.1, p.2)

/-- Fuel-driven greedy left-to-right scan implementing Python
`str.replace` for a nonempty pattern: at each position, if the pattern
matches, emit the replacement and skip the match, otherwise keep the
character.  The fuel only needs to be at least the length of the text. -/
def replaceGo (q r : List Char) : Nat → List Char → List Char
  | 0, s => s
  | _ + 1, [] => []
  | fuel + 1, c :: s =>
    if q ≠ [] ∧ q.isPrefixOf (c :: s) then
      r ++ replaceGo q r fuel ((c :: s).drop q.length)
    else c :: replaceGo q r fuel s

/-- Python `s.replace(q, r)` for a nonempty pattern `q` (all the calls in
the repository use nonempty literal patterns). -/
def listReplace (q r s : List Char) : List Char := replaceGo q r s.length s

/-- Fuel-driven scan implementing Python `str.split(q)` for a nonempty
separator: the maximal separator-free segments, in order. -/
def splitGo (q : List Char) : Nat → List Char → List (List Char)
  | 0, s => [s]
  | _ + 1, [] => [[]]
  | fuel + 1, c :: s =>
    if q ≠ [] ∧ q.isPrefixOf (c :: s) then
      [] :: splitGo q fuel ((c :: s).drop q.length)
    else consHead c (splitGo q fuel s)

/-- Python `s.split(q)` for a nonempty separator `q`. -/
def splitSeg (q s : List Char) : List (List Char) := splitGo q s.length s

/-- Python dict assignment `m[k] = v`: replace in place if the key is
present (keeping insertion order), else append. -/
def dictInsert (m : List (List Char × Py)) (k : List Char) (v : Py) :
    List (List Char × Py) :=
  if m.any (fun p => p.1 == k) then m.map (fun p => if p.1 == k then (k, v) else p)
  else m ++ [(k, v)]

/-- Python `m.get(k)`. -/
def dictGet (m : List (List Char × Py)) (k : List Char) : Option Py :=
  (m.find? (fun p => p.1 == k)).map (fun p => p.2)

/-- Identifier-continuation characters, used for keyword boundaries in the
literal parser. -/
def isIdentCh (c : Char) : Bool := c.isAlphanum || c = '_'

/-- Decimal digits to a natural number. -/
def digitsToNat (ds : List Char) : Nat :=
  ds.foldl (fun a c => 10 * a + (c.toNat - '0'.toNat)) 0

/-- Scan the rest of a Python string literal opened with quote `qc`,
processing the common backslash escapes; returns the content and the
remaining input after the closing quote. -/
def scanString (qc : Char) : Nat → List Char → Option (List Char × List Char)
  | 0, _ => Option.none
  | _ + 1, [] => Option.none
  | fuel + 1, c :: rest =>
    if c = qc then some ([], rest)
    else if c = '\\' then
      match rest with
      | [] => Option.none
      | e :: rest2 =>
        let mapped : List Char :=
          if e = 'n' then ['\n']
          else if e = 't' then ['\t']
          else if e = 'r' then ['\r']
          else if e = '\\' then ['\\']
          else if e = '\'' then ['\'']
          else if e = '"' then ['"']
          else ['\\', e]
        match scanString qc fuel rest2 with
        | some (cs2, rem) => some (mapped ++ cs2, rem)
        | Option.none => Option.none
    else if isLineTerm c then Option.none
    else
      match scanString qc fuel rest with
      | some (cs2, rem) => some (c :: cs2, rem)
      | Option.none => Option.none

/-- Keyword match with an identifier boundary: `kwAt kw s` returns the rest
of `s` after `kw` when `s` starts with `kw` not followed by an identifier
character. -/
def kwAt (kw s : List Char) : Option (List Char) :=
  if kw.isPrefixOf s then
    let rem := s.drop kw.length
    match rem with
    | [] => some []
    | d :: _ => if isIdentCh d then Option.none else some rem
  else Option.none

mutual

/-- Recursive-descent parser for the subset of Python literals relevant to
`ast.literal_eval` as used on frontmatter values: quoted strings, integers,
`True` / `False` / `None`, and (nested) list displays.  Anything outside
this subset fails, exactly as `ast.literal_eval` raises on non-literal
input such as bare names. -/
def parsePyVal : Nat → List Char → Option (Py × List Char)
  | 0, _ => Option.none
  | fuel + 1, s0 =>
    let s := s0.dropWhile isPySpace
    match kwAt ("True").toList s with
    | some rem => some (Py.bool true, rem)
    | Option.none =>
    match kwAt ("False").toList s with
    | some rem => some (Py.bool false, rem)
    | Option.none =>
    match kwAt ("None").toList s with
    | some rem => some (Py.none, rem)
    | Option.none =>
    match s with
    | [] => Option.none
    | c :: rest =>
      if c = '\'' || c = '"' then
        match scanString c (rest.length + 1) rest with
        | some (content, rem) => some (Py.str content, rem)
        | Option.none => Option.none
      else if c = '[' then
        match parsePyItems fuel rest with
        | some (items, rem) => some (Py.list items, rem)
        | Option.none => Option.none
      else if c = '-' then
        let rest2 := rest.dropWhile isPySpace
        let ds := rest2.takeWhile Char.isDigit
        if ds = [] then Option.none
        else some (Py.int (-(digitsToNat ds : Int)), rest2.drop ds.length)
      else if c.isDigit then
        let ds := (c :: rest).takeWhile Char.isDigit
        some (Py.int (digitsToNat ds : Int), (c :: rest).drop ds.length)
      else Option.none

/-- Parse the items of a list display after the opening bracket, allowing
a trailing comma, up to and including the closing bracket. -/
def parsePyItems : Nat → List Char → Option (List Py × List Char)
  | 0, _ => Option.none
  | fuel + 1, s0 =>
    let s := s0.dropWhile isPySpace
    match s with
    | ']' :: rem => some ([], rem)
    | _ =>
      match parsePyVal fuel s with
      | Option.none => Option.none
      | some (v, rem0) =>
        let rem := rem0.dropWhile isPySpace
        match rem with
        | ']' :: rem2 => some ([v], rem2)
        | ',' :: rem2 =>
          (match parsePyItems fuel rem2 with
           | some (vs, rem3) => some (v :: vs, rem3)
           | Option.none => Option.none)
        | _ => Option.none

end

/-- Model of `ast.literal_eval` on a frontmatter value: parse one literal
and require only whitespace to remain; `Option.none` models a raised
`ValueError` / `SyntaxError`. -/
def literalEval (s : List Char) : Option Py :=
  match parsePyVal (2 * s.length + 2) s with
  | some (v, rem) => if rem.dropWhile isPySpace = [] then some v else Option.none
  | Option.none => Option.none

/-- `parse_yaml_value` (identical in all three converter scripts): strip;
empty becomes the empty string; a bracketed value is literal-evaluated with
fallback to the raw bracketed string; a value wrapped in matching double or
single quotes has the outer quotes removed; anything else is the raw
trimmed string. -/
def parse_yaml_value (raw : List Char) : Py :=
  let value := pyStrip raw
  if value = [] then Py.str []
  else if value.head? = some '[' ∧ value.getLast? = some ']' then
    match literalEval value with
    | some v => v
    | Option.none => Py.str value
  else if (value.head? = some '"' ∧ value.getLast? = some '"') ∨
      (value.head? = some '\'' ∧ value.getLast? = some '\'') then
    Py.str (value.drop 1).dropLast
  else Py.str value

/-- The frontmatter delimiter line. -/
def DELIM : List Char := ("---").toList

/-- The closing fence line. -/
def FENCE : List Char := ("```").toList

/-- Shared shape of `extract_chatagent_block` / `extract_prompt_block`:
find the first line whose stripped form starts with the marker, then the
next line whose stripped form is exactly the closing fence; return the
interior joined by newlines, or the original text (with one warning) when
the fence is unterminated, or the original text (no warning) when there is
no fence at all. -/
def extract_block (marker warnMsg : List Char) (text : List Char) :
    List Char × List (List Char) :=
  let lines := pySplitlines text
  match lines.findIdx? (fun l => marker.isPrefixOf (pyStrip l)) with
  | Option.none => (text, [])
  | some i =>
    let rest := lines.drop (i + 1)
    match rest.findIdx? (fun l => pyStrip l == FENCE) with
    | Option.none => (text, [warnMsg])
    | some j => (joinLF (rest.take j), [])

/-- Warning emitted by `extract_chatagent_block` on an unterminated fence. -/
def chatagentWarn : List Char :=
  ("Chatagent block start found without closing ```.").toList

/-- `extract_chatagent_block` from agents2rules.py. -/
def extract_chatagent_block (text : List Char) : List Char × List (List Char) :=
  extract_block ("```chatagent").toList chatagentWarn text

/-- Warning emitted by `extract_prompt_block` on an unterminated fence. -/
def promptWarn : List Char :=
  ("Prompt block start found without closing ```.").toList

/-- `extract_prompt_block` from prompts2commands.py. -/
def extract_prompt_block (text : List Char) : List Char × List (List Char) :=
  extract_block ("```prompt").toList promptWarn text

/-- Prefix of the warning for a frontmatter line without a colon. -/
def unrecPre : List Char := ("Unrecognized frontmatter line: ").toList

/-- Warning for an unterminated frontmatter block. -/
def fmWarn : List Char := ("Frontmatter start found without closing '---'.").toList

/-- One step of the frontmatter-line loop of `parse_frontmatter`: skip
blank and comment lines, warn on a line without a colon, otherwise split
at the first colon and store the parsed value under the stripped key. -/
def fmStep (st : List (List Char × Py) × List (List Char)) (line : List Char) :
    List (List Char × Py) × List (List Char) :=
  let stripped := pyStrip line
  if stripped = [] || stripped.head? = some '#' then st
  else if line.contains ':' then
    let p := splitFirst ':' line
    (dictInsert st.1 (pyStrip p.1) (parse_yaml_value p.2), st.2)
  else (st.1, st.2 ++ [unrecPre ++ line])

/-- `parse_frontmatter` (identical in all three converter scripts):
returns (metadata, body, warnings). -/
def parse_frontmatter (text : List Char) :
    List (List Char × Py) × List Char × List (List Char) :=
  let lines := pySplitlines text
  match lines with
  | [] => ([], text, [])
  | l0 :: rest =>
    if pyStrip l0 ≠ DELIM then ([], text, [])
    else
      match rest.findIdx? (fun l => pyStrip l == DELIM) with
      | Option.none => ([], text, [fmWarn])
      | some i =>
        let st := (rest.take i).foldl fmStep ([], [])
        (st.1, joinLF (rest.drop (i + 1)), st.2)

/-- Pattern "GitHub Copilot". -/
def PAT1 : List Char := ("GitHub Copilot").toList

/-- Replacement "Cursor AI". -/
def REP1 : List Char := ("Cursor AI").toList

/-- Pattern "Visual Studio Code". -/
def PAT2 : List Char := ("Visual Studio Code").toList

/-- Pattern "VS Code". -/
def PAT3 : List Char := ("VS Code").toList

/-- Pattern "VSCode". -/
def PAT4 : List Char := ("VSCode").toList

/-- Replacement "Cursor". -/
def REPC : List Char := ("Cursor").toList

/-- `normalize_text` from prompts2commands.py; the same four chained
replacements are inlined in `build_rule_content` of the other two scripts. -/
def normalize_text (s : List Char) : List Char :=
  listReplace PAT4 REPC (listReplace PAT3 REPC (listReplace PAT2 REPC (listReplace PAT1 REP1 s)))

/-- `yaml_quote`: escape backslash, then double-quote, then wrap in
double quotes. -/
def yaml_quote (v : List Char) : List Char :=
  '"' :: listReplace ['"'] ['\\', '"'] (listReplace ['\\'] ['\\', '\\'] v) ++ ['"']

/-- The body adjustment of `build_rule_content`: drop a single leading
newline when the body starts with one. -/
def stripLeadNL (s : List Char) : List Char :=
  if s.head? = some '\n' then s.tail else s

/-- `build_rule_content` from instructions2rules.py.  The copy in
agents2rules.py is the special case `globs = []`, `always_apply = false`. -/
def build_rule_content (description : List Char) (globs : List (List Char))
    (always_apply : Bool) (body : List Char) : List Char :=
  let nd := normalize_text description
  let nb := normalize_text body
  let lines : List (List Char) :=
    [DELIM, ("description: ").toList ++ yaml_quote nd]
      ++ (if globs = [] then [("globs: []").toList]
          else ("globs:").toList :: globs.map (fun g => ("  - ").toList ++ yaml_quote g))
      ++ [("alwaysApply: ").toList ++ (if always_apply then ("true").toList else ("false").toList),
          DELIM]
  let bt := stripLeadNL nb
  if bt ≠ [] then joinLF lines ++ '\n' :: bt ++ ['\n']
  else joinLF lines ++ ['\n']

/-- Spec-side description (section 4.3 of the specification) of the rule
emitter's output: a delimiter line, a `description:` line with the quoted
(normalized) description, a globs block (`globs: []` when empty, else a
`globs:` line followed by one quoted entry line per glob), an
`alwaysApply:` line, a closing delimiter line, then the body with at most
one leading blank line stripped followed by a single appended newline. -/
def ruleContentSpec (description : List Char) (globs : List (List Char))
    (always_apply : Bool) (body : List Char) : List Char :=
  ("---\n").toList
    ++ ("description: ").toList ++ yaml_quote (normalize_text description) ++ ['\n']
    ++ (if globs = [] then ("globs: []\n").toList
        else ("globs:\n").toList
          ++ (globs.map (fun g => ("  - ").toList ++ yaml_quote g ++ ['\n'])).flatten)
    ++ ("alwaysApply: ").toList
    ++ (if always_apply then ("true\n").toList else ("false\n").toList)
    ++ ("---\n").toList
    ++ (let bt := stripLeadNL (normalize_text body)
        if bt = [] then [] else bt ++ ['\n'])

/-- `s` ends with exactly one newline character. -/
def endsWithOneNL (s : List Char) : Prop :=
  ['\n'] <:+ s ∧ ¬ ['\n', '\n'] <:+ s

/-- `build_rule_content` from agents2rules.py: globs fixed to `[]` and
alwaysApply fixed to `false`. -/
def agents_build_rule_content (description body : List Char) : List Char :=
  build_rule_content description [] false body

/-- Python `str.title()` applied by `build_command_content`: uppercase a
letter that does not follow a letter, lowercase a letter that does. -/
def titleGo : Bool → List Char → List Char
  | _, [] => []
  | prevAlpha, c :: rest =>
    (if c.isAlpha then (if prevAlpha then c.toLower else c.toUpper) else c) ::
      titleGo c.isAlpha rest

/-- Python `s.title()`. -/
def pyTitle (s : List Char) : List Char := titleGo false s

/-- The fixed instructional line of command outputs. -/
def instrLine : List Char :=
  ("Use any text after the command as additional context.").toList

/-- `build_command_content` from prompts2commands.py. -/
def build_command_content (description : Option (List Char))
    (body stem : List Char) : List Char :=
  let nb := normalize_text body
  let ndesc :=
    match description with
    | some d => normalize_text d
    | Option.none => []
  let title := pyTitle (listReplace ['_'] [' '] (listReplace ['-'] [' '] stem))
  let parts : List (List Char) :=
    ['#' :: ' ' :: title]
      ++ (if ndesc ≠ [] then [ndesc] else [])
      ++ [[], instrLine, []]
      ++ (if nb ≠ [] then [nb] else [])
  pyRstrip (joinLF parts) ++ ['\n']

/-- Escape a character for the Python `repr` of a string quoted with `qc`. -/
def reprEscape (qc : Char) (c : Char) : List Char :=
  if c = '\\' then ['\\', '\\']
  else if c = qc then ['\\', qc]
  else if c = '\n' then ['\\', 'n']
  else if c = '\r' then ['\\', 'r']
  else if c = '\t' then ['\\', 't']
  else [c]

mutual

/-- Python `repr` on the modelled values (used through `str()` on
non-string values inside `normalize_globs`). -/
def pyRepr : Py → List Char
  | Py.str s =>
    if s.contains '\'' && !(s.contains '"') then
      '"' :: (s.map (reprEscape '"')).flatten ++ ['"']
    else '\'' :: (s.map (reprEscape '\'')).flatten ++ ['\'']
  | Py.int n => (toString n).toList
  | Py.bool true => ("True").toList
  | Py.bool false => ("False").toList
  | Py.none => ("None").toList
  | Py.list xs => '[' :: joinWith (", ").toList (pyReprList xs) ++ [']']

/-- `repr` of each element of a list. -/
def pyReprList : List Py → List (List Char)
  | [] => []
  | x :: xs => pyRepr x :: pyReprList xs

end

/-- Python `str()` on the modelled values. -/
def pyStr (v : Py) : List Char :=
  match v with
  | Py.str s => s
  | _ => pyRepr v

/-- `normalize_globs` from instructions2rules.py: `None` gives `[]`; a
list gives its elements stringified and stripped; anything else is
stringified and split on commas with each part stripped; empty parts are
dropped. -/
def normalize_globs (apply_to : Option Py) : List (List Char) :=
  match apply_to with
  | Option.none => []
  | some (Py.list xs) => (xs.map (fun x => pyStrip (pyStr x))).filter (fun g => !g.isEmpty)
  | some v => ((splitSeg [','] (pyStr v)).map pyStrip).filter (fun g => !g.isEmpty)

/-- The metadata key "description". -/
def descKey : List Char := ("description").toList

/-- The metadata key "name". -/
def nameKey : List Char := ("name").toList

/-- The metadata key "applyTo". -/
def applyToKey : List Char := ("applyTo").toList

/-- The normalized (description, globs, alwaysApply, body, warnings)
computed by `convert_file` of instructions2rules.py before emission;
`stem` is `source_path.stem`. -/
structure InstrOutcome where
  description : List Char
  globs : List (List Char)
  alwaysApply : Bool
  body : List Char
  warnings : List (List Char)
deriving DecidableEq

/-- The metadata-resolution part of `convert_file` from
instructions2rules.py (everything between a successful read and the
emission of the rule text). -/
def instructions_convert_core (text stem : List Char) : InstrOutcome :=
  let pf := parse_frontmatter text
  let md := pf.1
  let fallback := listReplace (".instructions").toList [] stem
  let desc :=
    match dictGet md descKey with
    | some (Py.str s) => if pyStrip s = [] then fallback else s
    | _ => fallback
  let globs := normalize_globs (dictGet md applyToKey)
  let always := globs.any (fun g => g == ("*").toList || g == ("**").toList)
  ⟨desc, globs, always, pf.2.1, pf.2.2⟩

/-- Warning emitted by prompts2commands.py for a non-string description. -/
def descWarn : List Char :=
  ("Description is not a string; using filename instead.").toList

/-- The conversion pipeline of `convert_file` from prompts2commands.py
after a successful read: fence extraction, frontmatter parsing,
description-type check, and command emission; returns the emitted file
content and the accumulated warnings, with `stem` standing for
`source_path.stem.replace(".prompt", "")`. -/
def prompts_convert_core (text stem : List Char) : List Char × List (List Char) :=
  let ex := extract_prompt_block text
  let pf := parse_frontmatter ex.1
  let dw :=
    match dictGet pf.1 descKey with
    | some (Py.str s) => (some s, ([] : List (List Char)))
    | some _ => (Option.none, [descWarn])
    | Option.none => (Option.none, [])
  (build_command_content dw.1 pf.2.1 stem, ex.2 ++ pf.2.2 ++ dw.2)

/-- Per-file conversion outcome (the `ConversionResult` dataclass shared by
all three scripts). -/
structure ConversionResult where
  source : List Char
  destination : Option (List Char)
  success : Bool
  warnings : List (List Char)
  error : Option (List Char)
deriving DecidableEq

/-- Outcome of `Path.read_text(encoding="utf-8")` on a source path: either
the decoded text, an `OSError` with its message (e.g. the file is
unreadable), or a `UnicodeDecodeError` with its message when the bytes are
not valid UTF-8.  `UnicodeDecodeError` is a subclass of `ValueError`, not
of `OSError`, so the scripts' `except OSError` clauses do not catch it. -/
inductive ReadResult where
  | ok : List Char → ReadResult
  | osError : List Char → ReadResult
  | decodeError : List Char → ReadResult
deriving DecidableEq

/-- Whether a read outcome is the `UnicodeDecodeError` case, the one the
scripts do not catch. -/
def ReadResult.isDecode : ReadResult → Bool
  | ReadResult.ok _ => false
  | ReadResult.osError _ => false
  | ReadResult.decodeError _ => true

/-- The file system as seen by a converter run: reading a source path
yields a `ReadResult`; writing a destination path either succeeds or
raises an OSError with the given message (writing the UTF-8 encoding of
already-decoded text cannot raise a Unicode error). -/
structure FileSys where
  readRes : List Char → ReadResult
  writeRes : List Char → List Char → Except (List Char) Unit

/-- The file-name part of a path (after the last slash). -/
def baseName (p : List Char) : List Char :=
  ((splitFirst '/' p.reverse).1).reverse

/-- `Path.stem`: the file name with its last extension removed. -/
def stemOf (n : List Char) : List Char :=
  if n.contains '.' then ((splitFirst '.' n.reverse).2).reverse else n

/-- Resolution of one candidate description value in agents2rules.py:
accepted only when it is a string with nonempty strip. -/
def strOrNone (v : Option Py) : Option (List Char) :=
  match v with
  | some (Py.str s) => if pyStrip s = [] then Option.none else some s
  | _ => Option.none

/-- The description resolved by `convert_file` of agents2rules.py:
metadata `description`, else metadata `name`, else the file stem with
".agent" removed. -/
def agents_description (md : List (List Char × Py)) (name : List Char) : List Char :=
  ((strOrNone (dictGet md descKey)).orElse
    (fun _ => strOrNone (dictGet md nameKey))).getD
    (listReplace (".agent").toList [] (stemOf name))

/-- The warnings accumulated by `convert_file` of agents2rules.py for a
successfully read text. -/
def agents_warnings (text : List Char) : List (List Char) :=
  (extract_chatagent_block text).2 ++ (parse_frontmatter (extract_chatagent_block text).1).2.2

/-- The rule content emitted by `convert_file` of agents2rules.py for a
successfully read text. -/
def agents_content (text name : List Char) : List Char :=
  let ct := (extract_chatagent_block text).1
  let pf := parse_frontmatter ct
  agents_build_rule_content (agents_description pf.1 name) pf.2.1

/-- The destination path computed by `convert_file` of agents2rules.py:
the destination directory joined with the source file name, with
".agent.md" replaced by ".mdc". -/
def agents_dest (destDir srcPath : List Char) : List Char :=
  destDir ++ '/' :: listReplace (".agent.md").toList (".mdc").toList (baseName srcPath)

/-- `convert_file` from agents2rules.py.  Its two `try`/`except` blocks
catch only `OSError`: a read failing with OSError yields a failure record
with no destination, and a write failing with OSError yields a failure
record with the destination.  A read failing with `UnicodeDecodeError`
matches neither `except OSError` clause, so the exception escapes
`convert_file`; this is the `Except.error` branch of the return type. -/
def agents_convert_file (fs : FileSys) (destDir srcPath : List Char) :
    Except (List Char) ConversionResult :=
  match fs.readRes srcPath with
  | ReadResult.decodeError e => Except.error e
  | ReadResult.osError e => Except.ok ⟨srcPath, Option.none, false, [], some e⟩
  | ReadResult.ok text =>
    let warns := agents_warnings text
    let content := agents_content text (baseName srcPath)
    let dest := agents_dest destDir srcPath
    match fs.writeRes dest content with
    | Except.error e => Except.ok ⟨srcPath, some dest, false, warns, some e⟩
    | Except.ok _ => Except.ok ⟨srcPath, some dest, true, warns, Option.none⟩

/-- The batch loop of `main`: convert the collected source files in
order.  The loop body has no exception handler of its own, so an
exception escaping `convert_file` aborts the loop before the remaining
files are processed (`Except.error`); otherwise the loop collects one
result per file. -/
def agents_run_batch (fs : FileSys) (destDir : List Char) :
    List (List Char) → Except (List Char) (List ConversionResult)
  | [] => Except.ok []
  | p :: ps =>
    match agents_convert_file fs destDir p with
    | Except.error e => Except.error e
    | Except.ok r =>
      match agents_run_batch fs destDir ps with
      | Except.error e => Except.error e
      | Except.ok rs => Except.ok (r :: rs)

/-- The exit code computed by the batch part of `main` in all three
scripts, abstracted over the per-file conversion: 0 when there are no
candidate files, otherwise 1 when at least one file failed and 0 when
none did.  Warnings play no part. -/
def batch_exit_code (convert : List Char → ConversionResult)
    (sources : List (List Char)) : Nat :=
  if sources = [] then 0
  else if (sources.map convert).any (fun r => !r.success) then 1 else 0

/-- The exit code of an agents2rules.py batch run: when the loop finishes,
`main` returns 1 if any file failed and 0 otherwise; when an exception
escapes the loop, `main` never returns and the interpreter terminates on
the uncaught exception (the `Except.error` branch). -/
def agents_exit_code (fs : FileSys) (destDir : List Char)
    (sources : List (List Char)) : Except (List Char) Nat :=
  if sources = [] then Except.ok 0
  else
    match agents_run_batch fs destDir sources with
    | Except.error e => Except.error e
    | Except.ok rs => Except.ok (if rs.any (fun r => !r.success) then 1 else 0)

/-- A demonstration file system with one source file whose read raises
OSError, used to instantiate the batch theorems at concrete inputs. -/
def fsDemo : FileSys where
  readRes := fun p =>
    if p = ("bad.agent.md").toList then ReadResult.osError (("unreadable").toList)
    else ReadResult.ok (("---\ndescription: demo\n---\nBody").toList)
  writeRes := fun _ _ => Except.ok ()

/-- The per-file record produced by agents2rules.py over `fsDemo`: every
read on `fsDemo` either succeeds or raises a caught OSError, so
`agents_convert_file` always returns a record there and the default arm
below is never taken. -/
def fsDemoConvert (p : List Char) : ConversionResult :=
  match agents_convert_file fsDemo (("rules").toList) p with
  | Except.ok r => r
  | Except.error e => ⟨p, Option.none, false, [], some e⟩

/-- A demonstration file system with one OSError source file and one
source file whose bytes are not valid UTF-8, so that its read raises
UnicodeDecodeError. -/
def fsDemo2 : FileSys where
  readRes := fun p =>
    if p = ("bad.agent.md").toList then ReadResult.osError (("unreadable").toList)
    else if p = ("latin1.agent.md").toList then
      ReadResult.decodeError (("invalid utf-8 byte 0xe9").toList)
    else ReadResult.ok (("---\ndescription: demo\n---\nBody").toList)
  writeRes := fun _ _ => Except.ok ()

/-- The side conditions under which replacing some pattern by `r` can never
manufacture a new occurrence of `p`: `p` does not sit inside `r`, `r` does
not sit inside `p`, no nonempty prefix of `r` is a suffix of `p`, and no
nonempty suffix of `r` is a prefix of `p`. -/
def NoCreate (p r : List Char) : Prop :=
  ¬ p <:+: r ∧ ¬ r <:+: p ∧
  (∀ t, t ≠ [] → t <+: r → ¬ t <:+ p) ∧
  (∀ w, w ≠ [] → w <:+ r → ¬ w <+: p)

/-- Decidable (bounded) version of `NoCreate`. -/
def noCreateB (p r : List Char) : Bool :=
  decide (¬ p <:+: r) && decide (¬ r <:+: p) &&
  r.inits.all (fun t => t.isEmpty || decide (¬ t <:+ p)) &&
  r.tails.all (fun w => w.isEmpty || decide (¬ w <+: p))

/-! ### Theory of `listReplace` (Python `str.replace`) -/

theorem consHead_ne_nil (c : Char) (L : List (List Char)) : consHead c L ≠ [] := by
  cases L <;> simp [consHead]

theorem splitGo_ne_nil (q : List Char) (fuel : Nat) (s : List Char) :
    splitGo q fuel s ≠ [] := by
  match fuel, s with
  | 0, s => simp [splitGo]
  | _ + 1, [] => simp [splitGo]
  | fuel + 1, c :: s =>
    rw [splitGo]
    split
    · simp
    · exact consHead_ne_nil _ _

theorem joinWith_consHead (sep : List Char) (c : Char) (L : List (List Char))
    (h : L ≠ []) : joinWith sep (consHead c L) = c :: joinWith sep L := by
  match L with
  | [] => exact absurd rfl h
  | [x] => simp [consHead, joinWith]
  | x :: y :: t => simp [consHead, joinWith]

theorem replaceGo_eq_joinWith (q r : List Char) (fuel : Nat) (s : List Char) :
    replaceGo q r fuel s = joinWith r (splitGo q fuel s) := by
  induction fuel generalizing s with
  | zero => simp [replaceGo, splitGo, joinWith]
  | succ fuel ih =>
    match s with
    | [] => simp [replaceGo, splitGo, joinWith]
    | c :: s =>
      rw [replaceGo, splitGo]
      split
      · obtain ⟨h, t, hht⟩ : ∃ h t, splitGo q fuel ((c :: s).drop q.length) = h :: t := by
          cases hs : splitGo q fuel ((c :: s).drop q.length) with
          | nil => exact absurd hs (splitGo_ne_nil _ _ _)
          | cons h t => exact ⟨h, t, rfl⟩
        rw [ih, hht]
        simp [joinWith]
      · rw [ih, joinWith_consHead _ _ _ (splitGo_ne_nil _ _ _)]

theorem listReplace_eq_joinWith (q r s : List Char) :
    listReplace q r s = joinWith r (splitSeg q s) :=
  replaceGo_eq_joinWith q r s.length s

theorem splitGo_head_pref (q : List Char) (fuel : Nat) (s : List Char) :
    ∃ h t, splitGo q fuel s = h :: t ∧ h <+: s := by
  induction fuel generalizing s with
  | zero => exact ⟨s, [], rfl, List.prefix_refl s⟩
  | succ fuel ih =>
    match s with
    | [] => exact ⟨[], [], rfl, List.nil_prefix⟩
    | c :: s =>
      rw [splitGo]
      split
      · exact ⟨[], _, rfl, List.nil_prefix⟩
      · obtain ⟨h, t, hht, hpref⟩ := ih s
        rw [hht]
        exact ⟨c :: h, t, rfl, List.cons_prefix_cons.mpr ⟨rfl, hpref⟩⟩

theorem splitGo_seg_sub (q : List Char) (fuel : Nat) (s seg : List Char)
    (hmem : seg ∈ splitGo q fuel s) : seg <:+: s := by
  induction fuel generalizing s with
  | zero =>
    simp only [splitGo, List.mem_singleton] at hmem
    exact hmem ▸ List.infix_refl s
  | succ fuel ih =>
    match s with
    | [] =>
      simp only [splitGo, List.mem_singleton] at hmem
      simp [hmem]
    | c :: s =>
      rw [splitGo] at hmem
      split at hmem
      · rcases List.mem_cons.mp hmem with h | h
        · simp [h]
        · exact (ih _ h).trans (List.drop_suffix _ _).isInfix
      · obtain ⟨h, t, hht, hpref⟩ := splitGo_head_pref q fuel s
        rw [hht] at hmem
        rcases List.mem_cons.mp hmem with hx | hx
        · exact hx ▸ (List.cons_prefix_cons.mpr ⟨rfl, hpref⟩).isInfix
        · have : seg <:+: s := ih _ (hht ▸ List.mem_cons_of_mem h hx)
          exact this.trans (List.suffix_cons c s).isInfix

theorem splitGo_seg_qfree (q : List Char) (hq : q ≠ []) (fuel : Nat) (s seg : List Char)
    (hf : s.length ≤ fuel) (hmem : seg ∈ splitGo q fuel s) : ¬ q <:+: seg := by
  induction fuel generalizing s seg with
  | zero =>
    have : s = [] := List.length_eq_zero.mp (Nat.le_zero.mp hf)
    subst this
    simp only [splitGo, List.mem_singleton] at hmem
    subst hmem
    simpa [List.infix_nil] using hq
  | succ fuel ih =>
    match s with
    | [] =>
      simp only [splitGo, List.mem_singleton] at hmem
      subst hmem
      simpa [List.infix_nil] using hq
    | c :: s =>
      rw [splitGo] at hmem
      split at hmem
      case isTrue hcond =>
        rcases List.mem_cons.mp hmem with h | h
        · subst h
          simpa [List.infix_nil] using hq
        · refine ih _ _ ?_ h
          have hql : 1 ≤ q.length := List.length_pos.mpr hcond.1
          have hf' : s.length + 1 ≤ fuel + 1 := by simpa using hf
          have hlen : ((c :: s).drop q.length).length = s.length + 1 - q.length := by
            simp [List.length_drop]
          rw [hlen]
          omega
      case isFalse hcond =>
        obtain ⟨h, t, hht, hpref⟩ := splitGo_head_pref q fuel s
        rw [hht] at hmem
        have hfs : s.length ≤ fuel := by simpa using hf
        rcases List.mem_cons.mp hmem with hx | hx
        · subst hx
          intro hinf
          rcases List.infix_cons_iff.mp hinf with hpre | hinf2
          · have : q.isPrefixOf (c :: s) :=
              List.isPrefixOf_iff_prefix.mpr
                (hpre.trans (List.cons_prefix_cons.mpr ⟨rfl, hpref⟩))
            exact hcond ⟨hq, this⟩
          · exact ih s h hfs (by rw [hht]; exact List.mem_cons_self h t) hinf2
        · exact ih s seg hfs (by rw [hht]; exact List.mem_cons_of_mem h hx)

theorem infix_append_cases {p u v : List Char} (h : p <:+: u ++ v) :
    p <:+: u ∨ p <:+: v ∨
      ∃ w t, p = w ++ t ∧ w ≠ [] ∧ t ≠ [] ∧ w <:+ u ∧ t <+: v := by
  obtain ⟨a, b, hab⟩ := h
  have hab' : a ++ (p ++ b) = u ++ v := by simpa [List.append_assoc] using hab
  rcases List.append_eq_append_iff.mp hab' with ⟨a', ha1, ha2⟩ | ⟨c', _, hc2⟩
  · have hsuf : a' <:+ u := ⟨a, ha1.symm⟩
    rcases List.append_eq_append_iff.mp ha2 with ⟨x, hx1, _⟩ | ⟨y, hy1, hy2⟩
    · left
      have hpa : p <+: a' := by rw [hx1]; exact List.prefix_append p x
      exact hpa.isInfix.trans hsuf.isInfix
    · rcases eq_or_ne a' [] with rfl | ha'
      · right; left
        have hp : p = y := by simpa using hy1
        have hpv : p <+: v := ⟨b, by rw [hp]; exact hy2.symm⟩
        exact hpv.isInfix
      · rcases eq_or_ne y [] with rfl | hy
        · left
          have hp : p = a' := by simpa using hy1
          rw [hp]
          exact hsuf.isInfix
        · right; right
          exact ⟨a', y, hy1, ha', hy, hsuf, ⟨b, hy2.symm⟩⟩
  · right; left
    exact ⟨c', b, by rw [hc2]; simp [List.append_assoc]⟩

theorem noCreate_of_B {p r : List Char} (h : noCreateB p r = true) : NoCreate p r := by
  simp only [noCreateB, Bool.and_eq_true, List.all_eq_true, Bool.or_eq_true,
    List.isEmpty_iff, decide_eq_true_eq] at h
  obtain ⟨⟨⟨h1, h2⟩, h3⟩, h4⟩ := h
  refine ⟨h1, h2, ?_, ?_⟩
  · intro t ht hpref
    rcases h3 t ((List.mem_inits t r).mpr hpref) with h | h
    · exact absurd h ht
    · exact h
  · intro w hw hsuf
    rcases h4 w ((List.mem_tails w r).mpr hsuf) with h | h
    · exact absurd h hw
    · exact h

theorem noOccur_joinWith {p r : List Char} (hp : p ≠ []) (hnc : NoCreate p r) :
    ∀ L : List (List Char), (∀ seg ∈ L, ¬ p <:+: seg) → ¬ p <:+: joinWith r L := by
  intro L
  induction L with
  | nil =>
    intro _ hinf
    rw [joinWith, List.infix_nil] at hinf
    exact hp hinf
  | cons x L ih =>
    intro hsegs hinf
    match L, hinf with
    | [], hinf =>
      exact hsegs x (List.mem_singleton.mpr rfl) hinf
    | y :: t, hinf =>
      rw [joinWith, List.append_assoc] at hinf
      rcases infix_append_cases hinf with hx | hrest | ⟨w, tt, hsplit, hw, htt, hwsuf, httpref⟩
      · exact hsegs x (List.mem_cons_self x _) hx
      · rcases infix_append_cases hrest with hr | hj | ⟨w, tt, hsplit, hw, htt, hwsuf, httpref⟩
        · exact hnc.1 hr
        · exact ih (fun seg hseg => hsegs seg (List.mem_cons_of_mem x hseg)) hj
        · exact hnc.2.2.2 w hw hwsuf (hsplit ▸ List.prefix_append w tt)
      · rcases List.prefix_or_prefix_of_prefix httpref (List.prefix_append r _) with
          htr | hrt
        · exact hnc.2.2.1 tt htt htr (hsplit ▸ List.suffix_append w tt)
        · obtain ⟨u, hu⟩ := hrt
          exact hnc.2.1 ⟨w, u, by rw [hsplit, ← hu, List.append_assoc]⟩

/-- After `listReplace p r`, the pattern `p` itself no longer occurs
(under the `NoCreate` side conditions). -/
theorem listReplace_self_free {p r : List Char} (hp : p ≠ []) (hnc : NoCreate p r)
    (s : List Char) : ¬ p <:+: listReplace p r s := by
  rw [listReplace_eq_joinWith]
  exact noOccur_joinWith hp hnc _
    (fun seg hseg => splitGo_seg_qfree p hp s.length s seg (Nat.le_refl _) hseg)

/-- `listReplace q r` preserves the absence of a pattern `p`
(under the `NoCreate` side conditions relating `p` and `r`). -/
theorem listReplace_cross_free {p q r : List Char} (hp : p ≠ []) (hnc : NoCreate p r)
    (s : List Char) (hs : ¬ p <:+: s) : ¬ p <:+: listReplace q r s := by
  rw [listReplace_eq_joinWith]
  exact noOccur_joinWith hp hnc _
    (fun seg hseg hinf => hs (hinf.trans (splitGo_seg_sub q s.length s seg hseg)))

theorem replaceGo_id {q r : List Char} : ∀ (fuel : Nat) (s : List Char),
    ¬ q <:+: s → replaceGo q r fuel s = s := by
  intro fuel
  induction fuel with
  | zero => intro s _; rfl
  | succ fuel ih =>
    intro s hs
    match s with
    | [] => rfl
    | c :: s =>
      rw [replaceGo]
      split
      case isTrue hcond =>
        exact absurd (List.isPrefixOf_iff_prefix.mp hcond.2).isInfix hs
      case isFalse =>
        rw [ih s (fun hinf => hs (hinf.trans (List.suffix_cons c s).isInfix))]

/-- A replacement whose pattern does not occur is the identity. -/
theorem listReplace_id {q r s : List Char} (hs : ¬ q <:+: s) :
    listReplace q r s = s :=
  replaceGo_id s.length s hs

theorem singleton_infix_iff {c : Char} {l : List Char} : [c] <:+: l ↔ c ∈ l := by
  constructor
  · rintro ⟨s, t, rfl⟩
    simp
  · intro h
    obtain ⟨s, t, rfl⟩ := List.append_of_mem h
    exact ⟨s, t, by simp⟩

/-- A string free of each of the four product-name patterns is left
unchanged by `normalize_text`. -/
theorem normalize_text_id {s : List Char} (h1 : ¬ PAT1 <:+: s) (h2 : ¬ PAT2 <:+: s)
    (h3 : ¬ PAT3 <:+: s) (h4 : ¬ PAT4 <:+: s) : normalize_text s = s := by
  unfold normalize_text
  rw [listReplace_id h1, listReplace_id h2, listReplace_id h3, listReplace_id h4]

theorem pat1_not_in_normalize (s : List Char) : ¬ PAT1 <:+: normalize_text s := by
  have hp1 : PAT1 ≠ [] := by decide
  have nc11 : NoCreate PAT1 REP1 := noCreate_of_B (by decide)
  have nc1C : NoCreate PAT1 REPC := noCreate_of_B (by decide)
  unfold normalize_text
  exact listReplace_cross_free hp1 nc1C _
    (listReplace_cross_free hp1 nc1C _
      (listReplace_cross_free hp1 nc1C _
        (listReplace_self_free hp1 nc11 s)))

theorem pat2_not_in_normalize (s : List Char) : ¬ PAT2 <:+: normalize_text s := by
  have hp2 : PAT2 ≠ [] := by decide
  have nc2C : NoCreate PAT2 REPC := noCreate_of_B (by decide)
  unfold normalize_text
  exact listReplace_cross_free hp2 nc2C _
    (listReplace_cross_free hp2 nc2C _
      (listReplace_self_free hp2 nc2C _))

theorem pat3_not_in_normalize (s : List Char) : ¬ PAT3 <:+: normalize_text s := by
  have hp3 : PAT3 ≠ [] := by decide
  have nc3C : NoCreate PAT3 REPC := noCreate_of_B (by decide)
  unfold normalize_text
  exact listReplace_cross_free hp3 nc3C _ (listReplace_self_free hp3 nc3C _)

theorem pat4_not_in_normalize (s : List Char) : ¬ PAT4 <:+: normalize_text s := by
  have hp4 : PAT4 ≠ [] := by decide
  have nc4C : NoCreate PAT4 REPC := noCreate_of_B (by decide)
  unfold normalize_text
  exact listReplace_self_free hp4 nc4C _

/-! ### Theory of `pySplitlines` and `joinLF` -/

theorem pySplitlines_cons_nl (rest : List Char) :
    pySplitlines ('\n' :: rest) = [] :: pySplitlines rest := rfl

theorem pySplitlines_cons_nonterm {c : Char} (rest : List Char)
    (hc : isLineTerm c = false) :
    pySplitlines (c :: rest) = consHead c (pySplitlines rest) := by
  have hr : c ≠ '\r' := by
    intro h
    subst h
    simp [isLineTerm] at hc
  rw [pySplitlines.eq_def]
  split
  · next heq => exact absurd heq (List.cons_ne_nil c rest)
  · next r2 heq =>
    obtain ⟨h1, -⟩ := List.cons.inj heq
    exact absurd h1 hr
  · next c2 r2 hno heq =>
    obtain ⟨h1, h2⟩ := List.cons.inj heq
    subst h1
    subst h2
    rw [if_neg (by simp [hc])]

theorem pySplitlines_append_nl {a : List Char} (rest : List Char)
    (ha : ∀ c ∈ a, isLineTerm c = false) :
    pySplitlines (a ++ '\n' :: rest) = a :: pySplitlines rest := by
  induction a with
  | nil => simpa using pySplitlines_cons_nl rest
  | cons c a ih =>
    have hc : isLineTerm c = false := ha c (List.mem_cons_self c a)
    rw [List.cons_append, pySplitlines_cons_nonterm _ hc,
      ih (fun x hx => ha x (List.mem_cons_of_mem c hx))]
    rfl

theorem pySplitlines_cons_term {c : Char} (rest : List Char)
    (hc : isLineTerm c = true)
    (hno : ∀ rest2, c = '\r' → rest = '\n' :: rest2 → False) :
    pySplitlines (c :: rest) = [] :: pySplitlines rest := by
  rw [pySplitlines.eq_def]
  split
  · next heq => exact absurd heq (List.cons_ne_nil c rest)
  · next r2 heq =>
    obtain ⟨h1, h2⟩ := List.cons.inj heq
    exact absurd h2 (hno r2 h1)
  · next c2 r2 hno2 heq =>
    obtain ⟨h1, h2⟩ := List.cons.inj heq
    subst h1
    subst h2
    rw [if_pos hc]

theorem pySplitlines_term_free :
    ∀ (s : List Char), ∀ l ∈ pySplitlines s, ∀ c ∈ l, isLineTerm c = false := by
  intro s
  induction s using pySplitlines.induct with
  | case1 => simp [pySplitlines]
  | case2 rest ih =>
    intro l hl
    rcases List.mem_cons.mp hl with rfl | hl2
    · simp
    · exact ih l hl2
  | case3 c rest hno hc ih =>
    intro l hl
    rw [pySplitlines_cons_term rest hc hno] at hl
    rcases List.mem_cons.mp hl with rfl | hl2
    · simp
    · exact ih l hl2
  | case4 c rest hno hc ih =>
    intro l hl
    rw [pySplitlines_cons_nonterm rest (by simpa using hc)] at hl
    cases hsp : pySplitlines rest with
    | nil =>
      rw [hsp] at hl
      simp only [consHead, List.mem_singleton] at hl
      subst hl
      intro x hx
      rcases List.mem_singleton.mp hx with rfl
      simpa using hc
    | cons h t =>
      rw [hsp] at hl
      simp only [consHead] at hl
      rcases List.mem_cons.mp hl with rfl | hl2
      · intro x hx
        rcases List.mem_cons.mp hx with rfl | hx2
        · simpa using hc
        · exact ih h (by rw [hsp]; exact List.mem_cons_self h t) x hx2
      · exact ih l (by rw [hsp]; exact List.mem_cons_of_mem h hl2)

theorem splitGo_congr (q : List Char) :
    ∀ f1 f2 (s : List Char), s.length ≤ f1 → s.length ≤ f2 →
      splitGo q f1 s = splitGo q f2 s := by
  intro f1
  induction f1 with
  | zero =>
    intro f2 s h1 _
    have hs : s = [] := List.length_eq_zero.mp (Nat.le_zero.mp h1)
    subst hs
    cases f2 <;> rfl
  | succ f1 ih =>
    intro f2 s h1 h2
    match s with
    | [] => cases f2 <;> rfl
    | c :: s =>
      obtain ⟨f2', rfl⟩ : ∃ k, f2 = k + 1 := by
        cases f2 with
        | zero => simp at h2
        | succ k => exact ⟨k, rfl⟩
      rw [splitGo, splitGo]
      by_cases hP : q ≠ [] ∧ q.isPrefixOf (c :: s)
      · rw [if_pos hP, if_pos hP]
        have hql : 1 ≤ q.length := List.length_pos.mpr hP.1
        have hd : ((c :: s).drop q.length).length = s.length + 1 - q.length := by
          simp [List.length_drop]
        have hb1 : ((c :: s).drop q.length).length ≤ f1 := by
          rw [hd]
          simp only [List.length_cons] at h1
          omega
        have hb2 : ((c :: s).drop q.length).length ≤ f2' := by
          rw [hd]
          simp only [List.length_cons] at h2
          omega
        rw [ih f2' _ hb1 hb2]
      · rw [if_neg hP, if_neg hP]
        have hb1 : s.length ≤ f1 := by simpa using h1
        have hb2 : s.length ≤ f2' := by simpa using h2
        rw [ih f2' s hb1 hb2]

theorem splitSeg_cons (q : List Char) (c : Char) (s : List Char) :
    splitSeg q (c :: s) =
      if q ≠ [] ∧ q.isPrefixOf (c :: s) then [] :: splitSeg q ((c :: s).drop q.length)
      else consHead c (splitSeg q s) := by
  unfold splitSeg
  rw [List.length_cons, splitGo]
  by_cases hP : q ≠ [] ∧ q.isPrefixOf (c :: s)
  · rw [if_pos hP, if_pos hP]
    have hql : 1 ≤ q.length := List.length_pos.mpr hP.1
    have hd : ((c :: s).drop q.length).length = s.length + 1 - q.length := by
      simp [List.length_drop]
    rw [splitGo_congr q s.length _ _ (by omega) (Nat.le_refl _)]
  · rw [if_neg hP, if_neg hP]

theorem replaceGo_same (q : List Char) :
    ∀ (fuel : Nat) (s : List Char), replaceGo q q fuel s = s := by
  intro fuel
  induction fuel with
  | zero => intro s; rfl
  | succ fuel ih =>
    intro s
    match s with
    | [] => rfl
    | c :: s =>
      rw [replaceGo]
      split
      case isTrue hP =>
        obtain ⟨u, hu⟩ := List.isPrefixOf_iff_prefix.mp hP.2
        rw [← hu, List.drop_left, ih u]
      case isFalse => rw [ih s]

theorem listReplace_same (q s : List Char) : listReplace q q s = s :=
  replaceGo_same q s.length s

theorem pySplitlines_LF_split {t : List Char}
    (h : ∀ c ∈ t, isLineTerm c = true → c = '\n') :
    pySplitlines (t ++ ['\n']) = splitSeg ['\n'] t := by
  induction t with
  | nil => rfl
  | cons c t ih =>
    by_cases hc : isLineTerm c
    · have hcnl : c = '\n' := h c (List.mem_cons_self c t) hc
      subst hcnl
      rw [List.cons_append, pySplitlines_cons_nl,
        ih (fun x hx hterm => h x (List.mem_cons_of_mem _ hx) hterm),
        splitSeg_cons]
      rw [if_pos ⟨by simp, by simp [List.isPrefixOf]⟩]
      simp
    · have hcnl : c ≠ '\n' := by
        intro hh
        subst hh
        simp [isLineTerm] at hc
      rw [List.cons_append, pySplitlines_cons_nonterm _ (by simpa using hc),
        ih (fun x hx hterm => h x (List.mem_cons_of_mem _ hx) hterm),
        splitSeg_cons]
      rw [if_neg]
      intro ⟨_, hpre⟩
      rcases List.isPrefixOf_iff_prefix.mp hpre with ⟨u, hu⟩
      exact hcnl (List.cons.inj hu).1.symm

theorem joinLF_split_LF {t : List Char}
    (h : ∀ c ∈ t, isLineTerm c = true → c = '\n') :
    joinLF (pySplitlines (t ++ ['\n'])) = t := by
  rw [pySplitlines_LF_split h]
  show joinWith ['\n'] (splitSeg ['\n'] t) = t
  rw [← listReplace_eq_joinWith, listReplace_same]

theorem mem_joinWith_cases {c : Char} {sep : List Char} :
    ∀ L : List (List Char), c ∈ joinWith sep L → c ∈ sep ∨ ∃ l ∈ L, c ∈ l := by
  intro L
  induction L with
  | nil => intro h; simp [joinWith] at h
  | cons x L ih =>
    intro h
    match L, h with
    | [], h => exact Or.inr ⟨x, List.mem_singleton.mpr rfl, h⟩
    | y :: t, h =>
      rw [joinWith] at h
      rcases List.mem_append.mp h with h1 | h2
      · rcases List.mem_append.mp h1 with hx | hs
        · exact Or.inr ⟨x, List.mem_cons_self x _, hx⟩
        · exact Or.inl hs
      · rcases ih h2 with hs | ⟨l, hl, hc⟩
        · exact Or.inl hs
        · exact Or.inr ⟨l, List.mem_cons_of_mem x hl, hc⟩

theorem joinWith_getLast (sep : List Char) :
    ∀ (L : List (List Char)) (x : List Char), L.getLast? = some x → x ≠ [] →
      (joinWith sep L).getLast? = x.getLast? := by
  intro L
  induction L with
  | nil => intro x hx; simp at hx
  | cons y L ih =>
    intro x hx hne
    match L, hx with
    | [], hx =>
      have : y = x := by simpa using hx
      subst this
      rfl
    | z :: t, hx =>
      have hlast : (z :: t).getLast? = some x := by
        rw [List.getLast?_cons_cons] at hx
        exact hx
      have hj := ih x hlast hne
      have hjne : joinWith sep (z :: t) ≠ [] := by
        intro hnil
        rw [hnil] at hj
        obtain ⟨cc, hcc⟩ : ∃ cc, x.getLast? = some cc := by
          cases hgl : x.getLast? with
          | none => exact absurd (List.getLast?_eq_none_iff.mp hgl) hne
          | some cc => exact ⟨cc, rfl⟩
        rw [hcc] at hj
        simp at hj
      rw [joinWith, List.append_assoc,
        List.getLast?_append_of_ne_nil _ (by simp [hjne]),
        List.getLast?_append_of_ne_nil _ hjne, hj]

theorem joinLF_cons {L : List (List Char)} (a : List Char) (h : L ≠ []) :
    joinLF (a :: L) = a ++ '\n' :: joinLF L := by
  match L with
  | [] => exact absurd rfl h
  | x :: t =>
    show joinWith ['\n'] (a :: x :: t) = _
    rw [joinWith]
    simp [joinLF]

theorem joinLF_append_nl_flatten :
    ∀ L : List (List Char), L ≠ [] →
      joinLF L ++ ['\n'] = (L.map (fun l => l ++ ['\n'])).flatten := by
  intro L
  induction L with
  | nil => intro h; exact absurd rfl h
  | cons x L ih =>
    intro _
    match L with
    | [] => simp [joinLF, joinWith]
    | y :: t =>
      rw [joinLF_cons x (by simp), List.map_cons, List.flatten_cons,
        ← ih (by simp)]
      simp

theorem pyStrip_eq_self {s : List Char}
    (h1 : ∀ c, s.head? = some c → isPySpace c = false)
    (h2 : ∀ c, s.getLast? = some c → isPySpace c = false) : pyStrip s = s := by
  unfold pyStrip
  have hd : s.dropWhile isPySpace = s := by
    cases s with
    | nil => rfl
    | cons c s' => exact List.dropWhile_cons_of_neg (by simp [h1 c rfl])
  rw [hd]
  have hrev : s.reverse.dropWhile isPySpace = s.reverse := by
    cases hr : s.reverse with
    | nil => rfl
    | cons c r' =>
      have hcl : s.getLast? = some c := by
        rw [← List.head?_reverse, hr]
        rfl
      exact List.dropWhile_cons_of_neg (by simp [h2 c hcl])
  rw [hrev, List.reverse_reverse]

theorem pyStrip_cons_space {c : Char} {s : List Char} (hc : isPySpace c = true) :
    pyStrip (c :: s) = pyStrip s := by
  unfold pyStrip
  rw [List.dropWhile_cons_of_pos hc]

theorem splitFirst_append {c : Char} {a : List Char} (b : List Char) (ha : c ∉ a) :
    splitFirst c (a ++ c :: b) = (a, b) := by
  induction a with
  | nil => simp [splitFirst]
  | cons x a ih =>
    have hx : x ≠ c := by
      intro h
      exact ha (h ▸ List.mem_cons_self x a)
    rw [List.cons_append, splitFirst]
    simp only [if_neg hx]
    rw [ih (fun h => ha (List.mem_cons_of_mem x h))]

theorem extract_block_warn_shape (marker warnMsg text : List Char) :
    (extract_block marker warnMsg text).2 = [] ∨
    (extract_block marker warnMsg text).2 = [warnMsg] := by
  rcases h1 : (pySplitlines text).findIdx? (fun l => marker.isPrefixOf (pyStrip l)) with
    _ | i
  · left
    simp [extract_block, h1]
  · rcases h2 : ((pySplitlines text).drop (i + 1)).findIdx? (fun l => pyStrip l == FENCE)
      with _ | j
    · right
      simp [extract_block, h1, h2]
    · left
      simp [extract_block, h1, h2]

theorem fmStep_warn (st : List (List Char × Py) × List (List Char)) (l : List Char) :
    (fmStep st l).2 = st.2 ∨ (fmStep st l).2 = st.2 ++ [unrecPre ++ l] := by
  simp only [fmStep]
  split
  · left; rfl
  · split
    · left; rfl
    · right; rfl

theorem fmFold_warn_shape :
    ∀ (lines : List (List Char)) (st : List (List Char × Py) × List (List Char)),
      (∀ m ∈ st.2, unrecPre <+: m) →
      ∀ m ∈ (lines.foldl fmStep st).2, unrecPre <+: m := by
  intro lines
  induction lines with
  | nil => intro st h m hm; exact h m hm
  | cons l lines ih =>
    intro st h m hm
    rw [List.foldl_cons] at hm
    refine ih (fmStep st l) ?_ m hm
    intro m2 hm2
    rcases fmStep_warn st l with hw | hw
    · rw [hw] at hm2
      exact h m2 hm2
    · rw [hw] at hm2
      rcases List.mem_append.mp hm2 with hold | hnew
      · exact h m2 hold
      · rcases List.mem_singleton.mp hnew with rfl
        exact List.prefix_append unrecPre l

theorem parse_frontmatter_warn_shape (text : List Char) :
    ∀ m ∈ (parse_frontmatter text).2.2, m = fmWarn ∨ unrecPre <+: m := by
  rcases hsp : pySplitlines text with _ | ⟨l0, rest⟩
  · simp [parse_frontmatter, hsp]
  · by_cases hd : pyStrip l0 ≠ DELIM
    · simp [parse_frontmatter, hsp, hd]
    · rcases hfi : rest.findIdx? (fun l => pyStrip l == DELIM) with _ | i
      · intro m hm
        simp only [parse_frontmatter, hsp, hfi, if_neg hd, List.mem_singleton] at hm
        exact Or.inl hm
      · intro m hm
        simp only [parse_frontmatter, hsp, hfi, if_neg hd] at hm
        exact Or.inr (fmFold_warn_shape _ ([], []) (by simp) m hm)

/-! ### Claim theorems -/

/-- C1 counterexample: the frontmatter value `[a, b, c]` does NOT parse to
the sequence ["a","b","c"]: its elements are bare names, which literal
evaluation rejects, so `parse_yaml_value` keeps the raw bracketed string. -/
theorem claimC1_counterexample :
    parse_yaml_value ("[a, b, c]").toList = Py.str (("[a, b, c]").toList) ∧
    parse_yaml_value ("[a, b, c]").toList ≠
      Py.list [Py.str (("a").toList), Py.str (("b").toList), Py.str (("c").toList)] := by
  exact ⟨by decide, by decide⟩

/-- C1 (amended): a bracketed value whose elements are quoted strings, such
as `["a", "b", "c"]`, parses to the sequence ["a","b","c"]; a value wrapped
in matching double quotes parses to the unquoted string; a bare unquoted
value parses to the literal string; and for any bracketed value on which
literal evaluation fails (`[a, b, c]` among them), `parse_yaml_value`
returns the raw bracketed (stripped) string unchanged and does not raise. -/
theorem claimC1_value_grammar :
    (parse_yaml_value ("[\"a\", \"b\", \"c\"]").toList =
      Py.list [Py.str (("a").toList), Py.str (("b").toList), Py.str (("c").toList)]) ∧
    (parse_yaml_value ("\"quoted\"").toList = Py.str (("quoted").toList)) ∧
    (parse_yaml_value ("foo").toList = Py.str (("foo").toList)) ∧
    (∀ v : List Char, (pyStrip v).head? = some '[' → (pyStrip v).getLast? = some ']' →
      literalEval (pyStrip v) = Option.none → parse_yaml_value v = Py.str (pyStrip v)) := by
  refine ⟨by decide, by decide, by decide, ?_⟩
  intro v h1 h2 h3
  have hne : pyStrip v ≠ [] := by
    intro h
    rw [h] at h1
    simp at h1
  simp only [parse_yaml_value]
  rw [if_neg hne, if_pos ⟨h1, h2⟩, h3]

/-- C1 witness: the bracketed value `[a]` fails literal evaluation and is
kept as the raw string. -/
theorem claimC1_witness :
    (pyStrip (("[a]").toList)).head? = some '[' ∧
    (pyStrip (("[a]").toList)).getLast? = some ']' ∧
    literalEval (pyStrip (("[a]").toList)) = Option.none ∧
    parse_yaml_value ("[a]").toList = Py.str (pyStrip (("[a]").toList)) :=
  ⟨by decide, by decide, by decide,
    claimC1_value_grammar.2.2.2 (("[a]").toList) (by decide) (by decide) (by decide)⟩

/-- C2: soft-failure fallback.  If an opening ```` ```chatagent ```` fence
line is found but no closing fence line follows, fence extraction emits
exactly one warning and returns the original full text; if the first line
is a frontmatter delimiter but no closing delimiter line follows,
frontmatter parsing emits exactly one warning and returns empty metadata
with the full working text as body.  (Both embedded functions are total,
so neither case raises.) -/
theorem claimC2_soft_failure :
    (∀ (text : List Char) (i : Nat),
      (pySplitlines text).findIdx?
        (fun l => (("```chatagent").toList).isPrefixOf (pyStrip l)) = some i →
      ((pySplitlines text).drop (i + 1)).findIdx? (fun l => pyStrip l == FENCE) =
        Option.none →
      extract_chatagent_block text = (text, [chatagentWarn])) ∧
    (∀ (text l0 : List Char) (rest : List (List Char)),
      pySplitlines text = l0 :: rest → pyStrip l0 = DELIM →
      rest.findIdx? (fun l => pyStrip l == DELIM) = Option.none →
      parse_frontmatter text = ([], text, [fmWarn])) := by
  constructor
  · intro text i h1 h2
    simp only [extract_chatagent_block, extract_block]
    rw [h1]
    show (match ((pySplitlines text).drop (i + 1)).findIdx? (fun l => pyStrip l == FENCE) with
      | Option.none => (text, [chatagentWarn])
      | some j => (joinLF (((pySplitlines text).drop (i + 1)).take j), [])) =
      (text, [chatagentWarn])
    rw [h2]
  · intro text l0 rest h1 h2 h3
    simp only [parse_frontmatter]
    rw [h1]
    simp only [h2, h3]
    rw [if_neg (by simp)]

/-- C2 witness: an unterminated chatagent fence, and an unterminated
frontmatter block, each fall back softly with exactly one warning. -/
theorem claimC2_witness :
    (pySplitlines (("```chatagent\nx").toList)).findIdx?
        (fun l => (("```chatagent").toList).isPrefixOf (pyStrip l)) = some 0 ∧
    ((pySplitlines (("```chatagent\nx").toList)).drop 1).findIdx?
        (fun l => pyStrip l == FENCE) = Option.none ∧
    extract_chatagent_block (("```chatagent\nx").toList) =
      ((("```chatagent\nx").toList), [chatagentWarn]) ∧
    parse_frontmatter (("---\nfoo").toList) = ([], ("---\nfoo").toList, [fmWarn]) :=
  ⟨by decide, by decide,
    claimC2_soft_failure.1 (("```chatagent\nx").toList) 0 (by decide) (by decide),
    claimC2_soft_failure.2 (("---\nfoo").toList) (("---").toList) [("foo").toList]
      (by decide) (by decide) (by decide)⟩

/-- C4: brand replacement is a fixed point after one pass: applying the
product-name normalization (GitHub Copilot → Cursor AI; Visual Studio
Code, VS Code, VSCode → Cursor) twice gives the same result as applying it
once, for every input string. -/
theorem claimC4_normalize_idempotent (s : List Char) :
    normalize_text (normalize_text s) = normalize_text s :=
  normalize_text_id (pat1_not_in_normalize s) (pat2_not_in_normalize s)
    (pat3_not_in_normalize s) (pat4_not_in_normalize s)

theorem any_star_iff (gl : List (List Char)) :
    gl.any (fun g => g == ("*").toList || g == ("**").toList) = true ↔
      ("*").toList ∈ gl ∨ ("**").toList ∈ gl := by
  rw [List.any_eq_true]
  constructor
  · rintro ⟨x, hx, hor⟩
    rcases Bool.or_eq_true_iff.mp hor with h | h
    · exact Or.inl (eq_of_beq h ▸ hx)
    · exact Or.inr (eq_of_beq h ▸ hx)
  · rintro (h | h)
    · exact ⟨_, h, by simp⟩
    · exact ⟨_, h, by simp⟩

/-- C5: instruction-dialect applyTo normalization.  A sequence value yields
its elements stringified and stripped, a scalar value yields its
comma-split stripped parts, empty parts are dropped; `alwaysApply` is true
iff the normalized glob list contains the exact token `*` or `**`; and the
scenario `applyTo: "*.go, *.rs"`, `description: "Go/Rust style"` converts
to globs ["*.go","*.rs"] with alwaysApply false. -/
theorem claimC5_applyTo_normalization :
    (∀ xs : List Py, normalize_globs (some (Py.list xs)) =
      (xs.map (fun x => pyStrip (pyStr x))).filter (fun g => !g.isEmpty)) ∧
    (∀ v : Py, (∀ xs, v ≠ Py.list xs) → normalize_globs (some v) =
      ((splitSeg [','] (pyStr v)).map pyStrip).filter (fun g => !g.isEmpty)) ∧
    (∀ text stem : List Char,
      ((instructions_convert_core text stem).alwaysApply = true ↔
        ("*").toList ∈ (instructions_convert_core text stem).globs ∨
        ("**").toList ∈ (instructions_convert_core text stem).globs)) ∧
    (instructions_convert_core
        (("---\napplyTo: \"*.go, *.rs\"\ndescription: \"Go/Rust style\"\n---\nBody text").toList)
        (("x.instructions").toList) =
      ⟨("Go/Rust style").toList, [("*.go").toList, ("*.rs").toList], false,
        ("Body text").toList, []⟩) := by
  refine ⟨fun xs => rfl, ?_, ?_, by decide⟩
  · intro v hv
    cases v with
    | str s => rfl
    | int n => rfl
    | bool b => rfl
    | none => rfl
    | list xs => exact absurd rfl (hv xs)
  · intro text stem
    exact any_star_iff _

/-- C5 witness: the conversion-pipeline iff instantiated at the scenario
input, and the scalar-split rule at a concrete scalar. -/
theorem claimC5_witness :
    (∀ xs, Py.str (("*.go, *.rs").toList) ≠ Py.list xs) ∧
    normalize_globs (some (Py.str (("*.go, *.rs").toList))) =
      ((splitSeg [','] (pyStr (Py.str (("*.go, *.rs").toList)))).map pyStrip).filter
        (fun g => !g.isEmpty) ∧
    ((instructions_convert_core
        (("---\napplyTo: \"*.go, *.rs\"\ndescription: \"Go/Rust style\"\n---\nBody text").toList)
        (("x.instructions").toList)).alwaysApply = true ↔
      ("*").toList ∈ (instructions_convert_core
        (("---\napplyTo: \"*.go, *.rs\"\ndescription: \"Go/Rust style\"\n---\nBody text").toList)
        (("x.instructions").toList)).globs ∨
      ("**").toList ∈ (instructions_convert_core
        (("---\napplyTo: \"*.go, *.rs\"\ndescription: \"Go/Rust style\"\n---\nBody text").toList)
        (("x.instructions").toList)).globs) :=
  ⟨fun _ h => Py.noConfusion h,
    claimC5_applyTo_normalization.2.1 (Py.str (("*.go, *.rs").toList))
      (fun _ h => Py.noConfusion h),
    claimC5_applyTo_normalization.2.2.1
      (("---\napplyTo: \"*.go, *.rs\"\ndescription: \"Go/Rust style\"\n---\nBody text").toList)
      (("x.instructions").toList)⟩

/-- C9: prompt dialect.  When the metadata contains a `description` that is
present but not a string, the conversion emits exactly one warning for
that condition and the emitted command file is exactly the one built with
no description (the description line is omitted; no filename-based
fallback is substituted). -/
theorem claimC9_nonstring_description :
    ∀ (text stem : List Char) (v : Py),
      dictGet (parse_frontmatter (extract_prompt_block text).1).1 descKey = some v →
      (∀ s, v ≠ Py.str s) →
      (prompts_convert_core text stem).2.count descWarn = 1 ∧
      (prompts_convert_core text stem).1 =
        build_command_content Option.none
          (parse_frontmatter (extract_prompt_block text).1).2.1 stem := by
  intro text stem v hv hns
  have hcore : prompts_convert_core text stem =
      (build_command_content Option.none
        (parse_frontmatter (extract_prompt_block text).1).2.1 stem,
       (extract_prompt_block text).2 ++
         (parse_frontmatter (extract_prompt_block text).1).2.2 ++ [descWarn]) := by
    have hdw : (match dictGet (parse_frontmatter (extract_prompt_block text).1).1 descKey with
        | some (Py.str s) => (some s, ([] : List (List Char)))
        | some _ => (Option.none, [descWarn])
        | Option.none => (Option.none, ([] : List (List Char)))) =
        (Option.none, [descWarn]) := by
      rw [hv]
      cases v with
      | str s => exact absurd rfl (hns s)
      | int n => rfl
      | bool b => rfl
      | none => rfl
      | list xs => rfl
    simp only [prompts_convert_core]
    rw [hdw]
  rw [hcore]
  refine ⟨?_, rfl⟩
  have hex : ((extract_prompt_block text).2).count descWarn = 0 := by
    rw [List.count_eq_zero]
    intro hmem
    rcases extract_block_warn_shape (("```prompt").toList) promptWarn text with hsh | hsh
    · rw [show (extract_prompt_block text).2 =
          (extract_block (("```prompt").toList) promptWarn text).2 from rfl, hsh] at hmem
      simp at hmem
    · rw [show (extract_prompt_block text).2 =
          (extract_block (("```prompt").toList) promptWarn text).2 from rfl, hsh] at hmem
      exact absurd (List.mem_singleton.mp hmem) (by decide : descWarn ≠ promptWarn)
  have hpf : ((parse_frontmatter (extract_prompt_block text).1).2.2).count descWarn = 0 := by
    rw [List.count_eq_zero]
    intro hmem
    rcases parse_frontmatter_warn_shape _ descWarn hmem with h | h
    · exact absurd h (by decide : descWarn ≠ fmWarn)
    · exact absurd h (by decide : ¬ unrecPre <+: descWarn)
  rw [List.count_append, List.count_append, hex, hpf]
  decide

/-- C9 witness: a concrete prompt document whose description is the list
`["x"]` produces exactly one warning and the description-free command
output. -/
theorem claimC9_witness :
    dictGet (parse_frontmatter
        (extract_prompt_block (("---\ndescription: [\"x\"]\n---\nbody").toList)).1).1
        descKey = some (Py.list [Py.str (("x").toList)]) ∧
    (prompts_convert_core (("---\ndescription: [\"x\"]\n---\nbody").toList)
        (("p").toList)).2.count descWarn = 1 ∧
    (prompts_convert_core (("---\ndescription: [\"x\"]\n---\nbody").toList)
        (("p").toList)).1 =
      build_command_content Option.none
        (parse_frontmatter
          (extract_prompt_block (("---\ndescription: [\"x\"]\n---\nbody").toList)).1).2.1
        (("p").toList) := by
  refine ⟨by decide, ?_⟩
  exact claimC9_nonstring_description (("---\ndescription: [\"x\"]\n---\nbody").toList)
    (("p").toList) (Py.list [Py.str (("x").toList)]) (by decide)
    (fun s h => Py.noConfusion h)

theorem mem_of_getLast?_eq {α : Type} {l : List α} {a : α} (h : l.getLast? = some a) :
    a ∈ l := by
  obtain ⟨hne, hx⟩ := List.mem_getLast?_eq_getLast (Option.mem_def.mpr h)
  exact hx ▸ List.getLast_mem hne

/-- C10 (amended): when a complete frontmatter block is found, the body is
the post-delimiter lines rejoined with a single LF between them; every
line terminator surviving into the body is a LF (CRLF and the other
terminators are normalized away); and the body ends with a newline only
when the final post-delimiter line is empty — in particular the input's
final line terminator is dropped. -/
theorem claimC10_body_line_normalization :
    ∀ (text l0 : List Char) (rest : List (List Char)) (i : Nat),
      pySplitlines text = l0 :: rest → pyStrip l0 = DELIM →
      rest.findIdx? (fun l => pyStrip l == DELIM) = some i →
      (parse_frontmatter text).2.1 = joinLF (rest.drop (i + 1)) ∧
      (∀ c ∈ (parse_frontmatter text).2.1, isLineTerm c = true → c = '\n') ∧
      (∀ x, (rest.drop (i + 1)).getLast? = some x → x ≠ [] →
        (parse_frontmatter text).2.1.getLast? ≠ some '\n') := by
  intro text l0 rest i h1 h2 h3
  have hbody : (parse_frontmatter text).2.1 = joinLF (rest.drop (i + 1)) := by
    simp only [parse_frontmatter]
    rw [h1]
    simp only [h3]
    rw [if_neg (by simp [h2])]
  have htermfree : ∀ l ∈ rest.drop (i + 1), ∀ c ∈ l, isLineTerm c = false := by
    intro l hl c hc
    have hlines : l ∈ pySplitlines text := by
      rw [h1]
      exact List.mem_cons_of_mem l0 (List.mem_of_mem_drop hl)
    exact pySplitlines_term_free text l hlines c hc
  refine ⟨hbody, ?_, ?_⟩
  · intro c hc hterm
    rw [hbody] at hc
    rcases mem_joinWith_cases _ hc with hs | ⟨l, hl, hcl⟩
    · simpa using hs
    · have := htermfree l hl c hcl
      rw [hterm] at this
      exact absurd this (by simp)
  · intro x hx hxne
    rw [hbody]
    have hgl := joinWith_getLast ['\n'] (rest.drop (i + 1)) x hx hxne
    rw [show joinLF (rest.drop (i + 1)) = joinWith ['\n'] (rest.drop (i + 1)) from rfl, hgl]
    intro hcontra
    have hmem : '\n' ∈ x := mem_of_getLast?_eq hcontra
    have := htermfree x (mem_of_getLast?_eq hx) '\n' hmem
    exact absurd this (by decide)

/-- C10 counterexample: the claim's clause "the returned body never ends
with a newline character" fails: an input whose last line is empty yields
a body ending in a LF. -/
theorem claimC10_counterexample :
    parse_frontmatter (("---\n---\nx\n\n").toList) = ([], ("x\n").toList, []) ∧
    (("x\n").toList).getLast? = some '\n' := by
  exact ⟨by decide, by decide⟩

/-- C10 witness: a document with a CRLF line ending inside the body has the
CRLF normalized to LF, and the body does not end with a newline. -/
theorem claimC10_witness :
    pySplitlines (("---\na: b\n---\nbody\r\nmore").toList) =
      [("---").toList, ("a: b").toList, ("---").toList, ("body").toList, ("more").toList] ∧
    (parse_frontmatter (("---\na: b\n---\nbody\r\nmore").toList)).2.1 =
      joinLF ([("a: b").toList, ("---").toList, ("body").toList, ("more").toList].drop 2) := by
  refine ⟨by decide, ?_⟩
  exact (claimC10_body_line_normalization (("---\na: b\n---\nbody\r\nmore").toList)
    (("---").toList)
    [("a: b").toList, ("---").toList, ("body").toList, ("more").toList] 1
    (by decide) (by decide) (by decide)).1

/-- C7 counterexample: on a file system where `latin1.agent.md` holds
non-UTF-8 bytes, `convert_file` on that file ends in an uncaught
UnicodeDecodeError (an error value rather than a `ConversionResult`
record), and a three-file batch containing it aborts with that exception,
producing no record list at all — in particular the third file is never
processed.  This refutes the claim that every per-file failure is caught
into a record and that the batch always continues with the remaining
files. -/
theorem claimC7_counterexample :
    agents_convert_file fsDemo2 (("rules").toList) (("latin1.agent.md").toList) =
      Except.error (("invalid utf-8 byte 0xe9").toList) ∧
    agents_run_batch fsDemo2 (("rules").toList)
      [("a.agent.md").toList, ("latin1.agent.md").toList, ("c.agent.md").toList] =
      Except.error (("invalid utf-8 byte 0xe9").toList) :=
  ⟨rfl, rfl⟩

/-- C7 (amended): isolation holds exactly for the OSError failure points.
A read failing with OSError yields a caught failure record with the
message and no destination; a write failing with OSError yields a caught
failure record with the message and the destination; a returned record is
unsuccessful iff it carries an error message; but a read failing with
UnicodeDecodeError escapes `convert_file` and aborts the batch loop at
that file, and only when no source read raises UnicodeDecodeError does
the batch complete with exactly one record per source file. -/
theorem claimC7_batch_isolation :
    ∀ (fs : FileSys) (destDir : List Char),
      (∀ p e, fs.readRes p = ReadResult.osError e →
        agents_convert_file fs destDir p =
          Except.ok ⟨p, Option.none, false, [], some e⟩) ∧
      (∀ p text e, fs.readRes p = ReadResult.ok text →
        fs.writeRes (agents_dest destDir p) (agents_content text (baseName p)) =
          Except.error e →
        agents_convert_file fs destDir p =
          Except.ok ⟨p, some (agents_dest destDir p), false, agents_warnings text, some e⟩) ∧
      (∀ p r, agents_convert_file fs destDir p = Except.ok r →
        (r.success = false ↔ r.error.isSome)) ∧
      (∀ p ps e, fs.readRes p = ReadResult.decodeError e →
        agents_run_batch fs destDir (p :: ps) = Except.error e) ∧
      (∀ sources : List (List Char),
        (∀ p ∈ sources, (fs.readRes p).isDecode = false) →
        ∃ rs, agents_run_batch fs destDir sources = Except.ok rs ∧
          rs.length = sources.length ∧
          ∀ (i : Nat) (p : List Char), sources[i]? = some p →
            ∃ r, agents_convert_file fs destDir p = Except.ok r ∧
              rs[i]? = some r) := by
  intro fs destDir
  refine ⟨?_, ?_, ?_, ?_, ?_⟩
  · intro p e h
    simp [agents_convert_file, h]
  · intro p text e h1 h2
    simp only [agents_convert_file]
    rw [h1]
    simp only [h2]
  · intro p r hr
    simp only [agents_convert_file] at hr
    rcases hread : fs.readRes p with text | e | e <;> rw [hread] at hr
    · rcases hwrite : fs.writeRes (agents_dest destDir p)
          (agents_content text (baseName p)) with e | u <;>
        simp only [hwrite, Except.ok.injEq] at hr <;> subst hr <;> simp
    · simp only [Except.ok.injEq] at hr
      subst hr
      simp
    · exact absurd hr (by simp)
  · intro p ps e h
    simp [agents_run_batch, agents_convert_file, h]
  · intro sources hno
    induction sources with
    | nil => exact ⟨[], rfl, rfl, fun i p hp => by simp at hp⟩
    | cons p ps ih =>
      have hpok : ∃ r, agents_convert_file fs destDir p = Except.ok r := by
        rcases hread : fs.readRes p with text | e | e
        · rcases hwrite : fs.writeRes (agents_dest destDir p)
              (agents_content text (baseName p)) with e | u
          · exact ⟨⟨p, some (agents_dest destDir p), false, agents_warnings text, some e⟩,
              by simp [agents_convert_file, hread, hwrite]⟩
          · exact ⟨⟨p, some (agents_dest destDir p), true, agents_warnings text, Option.none⟩,
              by simp [agents_convert_file, hread, hwrite]⟩
        · exact ⟨⟨p, Option.none, false, [], some e⟩,
            by simp [agents_convert_file, hread]⟩
        · have := hno p (List.mem_cons_self p ps)
          rw [hread] at this
          exact absurd this (by simp [ReadResult.isDecode])
      obtain ⟨r, hr⟩ := hpok
      obtain ⟨rs, hrs, hlen, hidx⟩ :=
        ih (fun q hq => hno q (List.mem_cons_of_mem p hq))
      refine ⟨r :: rs, ?_, by simp [hlen], ?_⟩
      · simp [agents_run_batch, hr, hrs]
      · intro i q hq
        cases i with
        | zero =>
          simp only [List.getElem?_cons_zero, Option.some.injEq] at hq
          subst hq
          exact ⟨r, hr, by simp⟩
        | succ n =>
          simp only [List.getElem?_cons_succ] at hq ⊢
          exact hidx n q hq

/-- C7 witness: instantiating the amended theorem on a concrete file
system: the OSError file yields a caught failure record, a batch headed
by the non-UTF-8 file aborts with the uncaught exception, and a batch
whose reads are free of decode errors completes with one record per
file. -/
theorem claimC7_witness :
    fsDemo2.readRes (("bad.agent.md").toList) =
      ReadResult.osError (("unreadable").toList) ∧
    agents_convert_file fsDemo2 (("rules").toList) (("bad.agent.md").toList) =
      Except.ok ⟨("bad.agent.md").toList, Option.none, false, [],
        some (("unreadable").toList)⟩ ∧
    agents_run_batch fsDemo2 (("rules").toList)
      (("latin1.agent.md").toList :: [("c.agent.md").toList]) =
      Except.error (("invalid utf-8 byte 0xe9").toList) ∧
    ∃ rs, agents_run_batch fsDemo2 (("rules").toList)
        [("a.agent.md").toList, ("bad.agent.md").toList] = Except.ok rs ∧
      rs.length = [("a.agent.md").toList, ("bad.agent.md").toList].length ∧
      ∀ (i : Nat) (p : List Char),
        [("a.agent.md").toList, ("bad.agent.md").toList][i]? = some p →
        ∃ r, agents_convert_file fsDemo2 (("rules").toList) p = Except.ok r ∧
          rs[i]? = some r := by
  refine ⟨rfl, ?_, ?_, ?_⟩
  · exact (claimC7_batch_isolation fsDemo2 (("rules").toList)).1
      (("bad.agent.md").toList) (("unreadable").toList) rfl
  · exact (claimC7_batch_isolation fsDemo2 (("rules").toList)).2.2.2.1
      (("latin1.agent.md").toList) [("c.agent.md").toList]
      (("invalid utf-8 byte 0xe9").toList) rfl
  · exact (claimC7_batch_isolation fsDemo2 (("rules").toList)).2.2.2.2
      [("a.agent.md").toList, ("bad.agent.md").toList] (by decide)

/-- C8: the batch exit status is non-zero iff at least one file failed to
convert; it is zero when there are zero candidate files or when all
converted; and it depends only on the per-file success flags, so warnings
alone never change it. -/
theorem claimC8_exit_status :
    ∀ (convert : List Char → ConversionResult) (sources : List (List Char)),
      (batch_exit_code convert sources = 0 ↔
        ∀ r ∈ sources.map convert, r.success = true) ∧
      (batch_exit_code convert sources ≠ 0 ↔
        ∃ r ∈ sources.map convert, r.success = false) ∧
      (sources = [] → batch_exit_code convert sources = 0) ∧
      (∀ convert2 : List Char → ConversionResult,
        (∀ p, (convert2 p).success = (convert p).success) →
        batch_exit_code convert2 sources = batch_exit_code convert sources) := by
  intro convert sources
  have hmain : batch_exit_code convert sources = 0 ↔
      ∀ r ∈ sources.map convert, r.success = true := by
    unfold batch_exit_code
    by_cases hnil : sources = []
    · subst hnil
      simp
    · rw [if_neg hnil]
      by_cases hany : (sources.map convert).any (fun r => !r.success) = true
      · rw [if_pos hany]
        simp only [List.any_eq_true, Bool.not_eq_true'] at hany
        obtain ⟨r, hr, hrs⟩ := hany
        constructor
        · intro h
          exact absurd h (by simp)
        · intro h
          rw [h r hr] at hrs
          exact absurd hrs (by simp)
      · rw [if_neg hany]
        simp only [List.any_eq_true, Bool.not_eq_true', not_exists, not_and] at hany
        constructor
        · intro _ r hr
          have := hany r hr
          cases hrs : r.success with
          | false => exact absurd hrs this
          | true => rfl
        · intro _
          rfl
  refine ⟨hmain, ?_, ?_, ?_⟩
  · constructor
    · intro h
      by_contra hno
      push_neg at hno
      refine h (hmain.mpr ?_)
      intro r hr
      cases hrs : r.success with
      | true => rfl
      | false => exact absurd hrs (by simpa using hno r hr)
    · rintro ⟨r, hr, hrs⟩ h0
      have := hmain.mp h0 r hr
      rw [this] at hrs
      exact absurd hrs (by simp)
  · intro h
    subst h
    rfl
  · intro convert2 h
    unfold batch_exit_code
    by_cases hnil : sources = []
    · subst hnil
      rfl
    · rw [if_neg hnil, if_neg hnil]
      have hany : ∀ ss : List (List Char),
          ((ss.map convert2).any fun r => !r.success) =
          ((ss.map convert).any fun r => !r.success) := by
        intro ss
        induction ss with
        | nil => rfl
        | cons a t ih => simp [ih, h a]
      rw [hany sources]

theorem header_flatten (d : List Char) (g : List (List Char)) (a : Bool) :
    (([DELIM, ("description: ").toList ++ yaml_quote (normalize_text d)]
      ++ (if g = [] then [("globs: []").toList]
          else ("globs:").toList :: g.map (fun x => ("  - ").toList ++ yaml_quote x))
      ++ [("alwaysApply: ").toList ++ (if a then ("true").toList else ("false").toList),
          DELIM]).map (fun l => l ++ ['\n'])).flatten =
    ("---\n").toList ++ ("description: ").toList ++ yaml_quote (normalize_text d) ++ ['\n']
      ++ (if g = [] then ("globs: []\n").toList
          else ("globs:\n").toList
            ++ (g.map (fun x => ("  - ").toList ++ yaml_quote x ++ ['\n'])).flatten)
      ++ ("alwaysApply: ").toList
      ++ (if a then ("true\n").toList else ("false\n").toList)
      ++ ("---\n").toList := by
  have e1 : ("---\n").toList = DELIM ++ ['\n'] := rfl
  have e2 : ("globs: []\n").toList = ("globs: []").toList ++ ['\n'] := rfl
  have e3 : ("globs:\n").toList = ("globs:").toList ++ ['\n'] := rfl
  have e4 : ("true\n").toList = ("true").toList ++ ['\n'] := rfl
  have e5 : ("false\n").toList = ("false").toList ++ ['\n'] := rfl
  by_cases hg : g = []
  · subst hg
    cases a <;> simp [DELIM, e1, e2, e4, e5, List.append_assoc]
  · rw [if_neg hg, if_neg hg]
    cases a <;>
      simp [DELIM, e1, e3, e4, e5, List.append_assoc] <;>
      · refine congrArg List.flatten (List.map_congr_left ?_)
        intro x _
        simp [Function.comp, List.append_assoc]

theorem build_eq_spec (d : List Char) (g : List (List Char)) (a : Bool) (b : List Char) :
    build_rule_content d g a b = ruleContentSpec d g a b := by
  have hne : ([DELIM, ("description: ").toList ++ yaml_quote (normalize_text d)]
      ++ (if g = [] then [("globs: []").toList]
          else ("globs:").toList :: g.map (fun x => ("  - ").toList ++ yaml_quote x))
      ++ [("alwaysApply: ").toList ++ (if a then ("true").toList else ("false").toList),
          DELIM]) ≠ [] := by simp
  have hflat := joinLF_append_nl_flatten _ hne
  have hhd := header_flatten d g a
  simp only [build_rule_content, ruleContentSpec]
  by_cases hbt : stripLeadNL (normalize_text b) = []
  · rw [if_neg (by simpa using hbt), if_pos hbt, List.append_nil, hflat, hhd]
  · rw [if_pos hbt, if_neg hbt, ← hhd, ← hflat]
    simp [List.append_assoc]

theorem lines_getLast (d : List Char) (g : List (List Char)) (a : Bool) :
    ([DELIM, ("description: ").toList ++ yaml_quote (normalize_text d)]
      ++ (if g = [] then [("globs: []").toList]
          else ("globs:").toList :: g.map (fun x => ("  - ").toList ++ yaml_quote x))
      ++ [("alwaysApply: ").toList ++ (if a then ("true").toList else ("false").toList),
          DELIM]).getLast? = some DELIM := by
  rw [List.getLast?_append_of_ne_nil _ (by simp)]
  rfl

/-- C6 (amended): rule emitter output shape.  For every description, glob
list, alwaysApply flag and body, the emitted rule text is a delimiter
line, a description line whose (normalized) value is quoted with backslash
escaped before double-quote, a globs block (`globs: []` when empty,
otherwise one quoted glob per entry), an `alwaysApply: true|false` line, a
closing delimiter line, then the body with at most one leading blank line
stripped followed by one appended newline; the whole output ends with
exactly one trailing newline whenever the stripped body does not itself
end with a newline. -/
theorem claimC6_rule_output_shape :
    (∀ (d : List Char) (g : List (List Char)) (a : Bool) (b : List Char),
      build_rule_content d g a b = ruleContentSpec d g a b) ∧
    (∀ (d : List Char) (g : List (List Char)) (a : Bool) (b : List Char),
      (stripLeadNL (normalize_text b)).getLast? ≠ some '\n' →
      endsWithOneNL (build_rule_content d g a b)) := by
  refine ⟨build_eq_spec, ?_⟩
  intro d g a b hb
  have hLlast := lines_getLast d g a
  simp only [build_rule_content]
  set L := [DELIM, ("description: ").toList ++ yaml_quote (normalize_text d)]
      ++ (if g = [] then [("globs: []").toList]
          else ("globs:").toList :: g.map (fun x => ("  - ").toList ++ yaml_quote x))
      ++ [("alwaysApply: ").toList ++ (if a then ("true").toList else ("false").toList),
          DELIM] with hL
  by_cases hbt : stripLeadNL (normalize_text b) = []
  · rw [if_neg (by simpa using hbt)]
    refine ⟨List.suffix_append _ _, ?_⟩
    rintro ⟨w, hw⟩
    have hw2 : (w ++ ['\n']) ++ ['\n'] = joinLF L ++ ['\n'] := by
      simpa [List.append_assoc] using hw
    have hw3 := List.append_cancel_right hw2
    have hlast : (joinLF L).getLast? = some '\n' := by
      rw [← hw3]
      exact List.getLast?_concat _
    have hjw : joinLF L = joinWith ['\n'] L := rfl
    rw [hjw, joinWith_getLast ['\n'] L DELIM hLlast (by decide)] at hlast
    exact absurd hlast (by decide)
  · rw [if_pos hbt]
    constructor
    · exact List.suffix_append _ _
    · rintro ⟨w, hw⟩
      have hw2 : (w ++ ['\n']) ++ ['\n'] =
          (joinLF L ++ '\n' :: stripLeadNL (normalize_text b)) ++ ['\n'] := by
        simpa [List.append_assoc] using hw
      have hw3 := List.append_cancel_right hw2
      have hlast : (joinLF L ++ '\n' :: stripLeadNL (normalize_text b)).getLast? =
          some '\n' := by
        rw [← hw3]
        exact List.getLast?_concat _
      rw [List.append_cons, List.getLast?_append_of_ne_nil _ hbt] at hlast
      exact hb hlast

theorem parse_quoted_value (d : List Char) :
    parse_yaml_value (' ' :: '"' :: (d ++ ['"'])) = Py.str d := by
  have hgl : ('"' :: (d ++ ['"']) : List Char).getLast? = some '"' := by
    rw [show ('"' :: (d ++ ['"']) : List Char) = ('"' :: d) ++ ['"'] by simp]
    exact List.getLast?_concat _
  have hv : pyStrip (' ' :: '"' :: (d ++ ['"'])) = '"' :: (d ++ ['"']) := by
    rw [pyStrip_cons_space (by decide)]
    apply pyStrip_eq_self
    · intro c hc
      have : c = '"' := by
        rw [show ('"' :: (d ++ ['"']) : List Char).head? = some '"' from rfl] at hc
        exact (Option.some.inj hc).symm
      subst this
      decide
    · intro c hc
      rw [hgl] at hc
      have : c = '"' := (Option.some.inj hc).symm
      subst this
      decide
  simp only [parse_yaml_value, hv]
  rw [if_neg (by simp), if_neg (by rintro ⟨h, -⟩; simp at h),
    if_pos (Or.inl ⟨rfl, hgl⟩)]
  rw [show (('"' :: (d ++ ['"'])).drop 1 : List Char) = d ++ ['"'] from rfl,
    List.dropLast_concat]

theorem yaml_quote_clean {d : List Char} (h1 : '\\' ∉ d) (h2 : '"' ∉ d) :
    yaml_quote d = '"' :: (d ++ ['"']) := by
  unfold yaml_quote
  rw [listReplace_id (fun hinf => h1 (singleton_infix_iff.mp hinf)),
    listReplace_id (fun hinf => h2 (singleton_infix_iff.mp hinf))]
  simp

theorem mem_stripLeadNL {c : Char} {b : List Char} (h : c ∈ stripLeadNL b) : c ∈ b := by
  unfold stripLeadNL at h
  split at h
  · exact List.mem_of_mem_tail h
  · exact h

theorem parse_frontmatter_eq (text l0 : List Char) (rest : List (List Char)) (i : Nat)
    (h1 : pySplitlines text = l0 :: rest) (h2 : pyStrip l0 = DELIM)
    (h3 : rest.findIdx? (fun l => pyStrip l == DELIM) = some i) :
    parse_frontmatter text =
      (((rest.take i).foldl fmStep ([], [])).1, joinLF (rest.drop (i + 1)),
        ((rest.take i).foldl fmStep ([], [])).2) := by
  simp only [parse_frontmatter]
  rw [h1]
  simp only [h3]
  rw [if_neg (by simp [h2])]

theorem parse_frontmatter_of_ruleLines (T d : List Char) (tailLines : List (List Char))
    (hlines : pySplitlines T =
      DELIM :: (("description: ").toList ++ ('"' :: (d ++ ['"']))) ::
        ("globs: []").toList :: (("alwaysApply: ").toList ++ ("false").toList) ::
        DELIM :: tailLines) :
    parse_frontmatter T =
      ([(descKey, Py.str d), ((("globs").toList), Py.list []),
        ((("alwaysApply").toList), Py.str (("false").toList))],
       joinLF tailLines, []) := by
  have hdh : ((("description: ").toList ++ ('"' :: (d ++ ['"']))) : List Char).head? =
      some 'd' := rfl
  have hgl : ((("description: ").toList ++ ('"' :: (d ++ ['"']))) : List Char).getLast? =
      some '"' := by
    rw [List.getLast?_append_of_ne_nil _ (by simp),
      show ('"' :: (d ++ ['"']) : List Char) = ('"' :: d) ++ ['"'] by simp]
    exact List.getLast?_concat _
  have hsd : pyStrip (("description: ").toList ++ ('"' :: (d ++ ['"']))) =
      ("description: ").toList ++ ('"' :: (d ++ ['"'])) := by
    apply pyStrip_eq_self
    · intro c hc
      rw [hdh] at hc
      have : c = 'd' := (Option.some.inj hc).symm
      subst this
      decide
    · intro c hc
      rw [hgl] at hc
      have : c = '"' := (Option.some.inj hc).symm
      subst this
      decide
  have hdne : ("description: ").toList ++ ('"' :: (d ++ ['"'])) ≠ DELIM := by
    intro h
    have h0 := congrArg List.head? h
    rw [hdh] at h0
    exact absurd (Option.some.inj h0) (by decide)
  have hfi : ((("description: ").toList ++ ('"' :: (d ++ ['"']))) ::
      ("globs: []").toList :: (("alwaysApply: ").toList ++ ("false").toList) ::
      DELIM :: tailLines).findIdx? (fun l => pyStrip l == DELIM) = some 3 := by
    rw [List.findIdx?_cons, if_neg (by simp only [hsd, beq_iff_eq]; simpa using hdne)]
    rw [List.findIdx?_cons, if_neg (by decide)]
    rw [List.findIdx?_cons, if_neg (by decide)]
    rw [List.findIdx?_cons, if_pos (by decide)]
  have hstep1 : fmStep ([], []) (("description: ").toList ++ ('"' :: (d ++ ['"']))) =
      ([(descKey, Py.str d)], []) := by
    simp only [fmStep, hsd]
    rw [if_neg (by
      simp only [Bool.or_eq_true, decide_eq_true_eq]
      rintro (h | h)
      · exact absurd (congrArg List.head? h) (by rw [hdh]; simp)
      · rw [hdh] at h
        exact absurd (Option.some.inj h) (by decide))]
    rw [if_pos (show (("description: ").toList ++
        ('"' :: (d ++ ['"']))).contains ':' = true from rfl)]
    rw [show ("description: ").toList ++ ('"' :: (d ++ ['"'])) =
      ("description").toList ++ ':' :: (' ' :: '"' :: (d ++ ['"'])) from rfl]
    rw [splitFirst_append _ (by decide)]
    have hkey : pyStrip (("description").toList) = descKey := by decide
    simp only [hkey, parse_quoted_value]
    rfl
  rw [parse_frontmatter_eq T DELIM _ 3 hlines (by decide) hfi]
  rw [show ((("description: ").toList ++ ('"' :: (d ++ ['"']))) ::
      ("globs: []").toList :: (("alwaysApply: ").toList ++ ("false").toList) ::
      DELIM :: tailLines).take 3 =
      [("description: ").toList ++ ('"' :: (d ++ ['"'])),
        ("globs: []").toList, ("alwaysApply: ").toList ++ ("false").toList] from rfl]
  rw [List.foldl_cons, hstep1]
  rfl

/-- C3 (amended): round-trip through the rule emitter and the frontmatter
parser holds for the empty glob list, for a description free of quotes,
backslashes, line terminators and brand names, and for a body free of
brand names whose line terminators are all LF: parsing the emitted
document back yields the description under `description`, the empty list
under `globs`, the STRING "false" under `alwaysApply`, no warnings, and
the body up to the single stripped leading blank line.  (Nonempty glob
lists and the boolean flag do not survive the round trip; see the
counterexample.) -/
theorem claimC3_roundtrip :
    ∀ (d b : List Char),
      normalize_text d = d → '"' ∉ d → '\\' ∉ d →
      (∀ c ∈ d, isLineTerm c = false) →
      normalize_text b = b →
      (∀ c ∈ b, isLineTerm c = true → c = '\n') →
      parse_frontmatter (build_rule_content d [] false b) =
        ([(descKey, Py.str d), ((("globs").toList), Py.list []),
          ((("alwaysApply").toList), Py.str (("false").toList))],
         stripLeadNL b, []) := by
  intro d b hnd hq hbs hdterm hnb hbterm
  have hyq := yaml_quote_clean hbs hq
  have hbt_only_lf : ∀ c ∈ stripLeadNL b, isLineTerm c = true → c = '\n' :=
    fun c hc => hbterm c (mem_stripLeadNL hc)
  have hdesc_tf : ∀ c ∈ ("description: ").toList ++ ('"' :: (d ++ ['"'])),
      isLineTerm c = false := by
    intro c hc
    rcases List.mem_append.mp hc with h | h
    · exact (by decide : ∀ x ∈ ("description: ").toList, isLineTerm x = false) c h
    · rcases List.mem_cons.mp h with rfl | h2
      · decide
      · rcases List.mem_append.mp h2 with h3 | h4
        · exact hdterm c h3
        · rcases List.mem_singleton.mp h4 with rfl
          decide
  by_cases hsb : stripLeadNL b = []
  · have hbuild : build_rule_content d [] false b =
        joinLF [DELIM, ("description: ").toList ++ ('"' :: (d ++ ['"'])),
          ("globs: []").toList, ("alwaysApply: ").toList ++ ("false").toList, DELIM]
          ++ ['\n'] := by
      simp only [build_rule_content, hnd, hnb, hyq]
      rw [if_neg (by simpa using hsb)]
      simp
    have hshape : joinLF [DELIM, ("description: ").toList ++ ('"' :: (d ++ ['"'])),
        ("globs: []").toList, ("alwaysApply: ").toList ++ ("false").toList, DELIM]
        ++ ['\n'] =
        DELIM ++ '\n' :: ((("description: ").toList ++ ('"' :: (d ++ ['"'])))
          ++ '\n' :: (("globs: []").toList
          ++ '\n' :: ((("alwaysApply: ").toList ++ ("false").toList)
          ++ '\n' :: (DELIM ++ ['\n'])))) := by
      simp [joinLF, joinWith, List.append_assoc]
    have hsl : pySplitlines (build_rule_content d [] false b) =
        DELIM :: (("description: ").toList ++ ('"' :: (d ++ ['"']))) ::
          ("globs: []").toList :: (("alwaysApply: ").toList ++ ("false").toList) ::
          DELIM :: [] := by
      rw [hbuild, hshape]
      rw [pySplitlines_append_nl _ (by decide)]
      rw [pySplitlines_append_nl _ hdesc_tf]
      rw [pySplitlines_append_nl _ (by decide)]
      rw [pySplitlines_append_nl _ (by decide)]
      rw [show pySplitlines (DELIM ++ ['\n']) = [DELIM] from by decide]
    rw [parse_frontmatter_of_ruleLines _ d [] hsl, hsb]
    rfl
  · have hbuild : build_rule_content d [] false b =
        joinLF [DELIM, ("description: ").toList ++ ('"' :: (d ++ ['"'])),
          ("globs: []").toList, ("alwaysApply: ").toList ++ ("false").toList, DELIM]
          ++ '\n' :: stripLeadNL b ++ ['\n'] := by
      simp only [build_rule_content, hnd, hnb, hyq]
      rw [if_pos hsb]
      simp
    have hshape : joinLF [DELIM, ("description: ").toList ++ ('"' :: (d ++ ['"'])),
        ("globs: []").toList, ("alwaysApply: ").toList ++ ("false").toList, DELIM]
        ++ '\n' :: stripLeadNL b ++ ['\n'] =
        DELIM ++ '\n' :: ((("description: ").toList ++ ('"' :: (d ++ ['"'])))
          ++ '\n' :: (("globs: []").toList
          ++ '\n' :: ((("alwaysApply: ").toList ++ ("false").toList)
          ++ '\n' :: (DELIM ++ '\n' :: (stripLeadNL b ++ ['\n']))))) := by
      simp [joinLF, joinWith, List.append_assoc]
    have hsl : pySplitlines (build_rule_content d [] false b) =
        DELIM :: (("description: ").toList ++ ('"' :: (d ++ ['"']))) ::
          ("globs: []").toList :: (("alwaysApply: ").toList ++ ("false").toList) ::
          DELIM :: splitSeg ['\n'] (stripLeadNL b) := by
      rw [hbuild, hshape]
      rw [pySplitlines_append_nl _ (by decide)]
      rw [pySplitlines_append_nl _ hdesc_tf]
      rw [pySplitlines_append_nl _ (by decide)]
      rw [pySplitlines_append_nl _ (by decide)]
      rw [pySplitlines_append_nl _ (by decide)]
      rw [pySplitlines_LF_split hbt_only_lf]
    rw [parse_frontmatter_of_ruleLines _ d _ hsl]
    have hbody : joinLF (splitSeg ['\n'] (stripLeadNL b)) = stripLeadNL b := by
      rw [show joinLF (splitSeg ['\n'] (stripLeadNL b)) =
        joinWith ['\n'] (splitSeg ['\n'] (stripLeadNL b)) from rfl,
        ← listReplace_eq_joinWith, listReplace_same]
    rw [hbody]

/-- C3 counterexample: the round-trip fails as stated for a nonempty glob
list: the emitted `globs:` block parses back as the empty-string value of
the key `globs` (the `- "..."` entry lines have no colon and produce
warnings), and `alwaysApply: true` parses back as the string "true", not
the boolean. -/
theorem claimC3_counterexample :
    dictGet (parse_frontmatter
        (build_rule_content (("d").toList) [("*").toList] true (("B").toList))).1
        (("globs").toList) = some (Py.str []) ∧
    some (Py.str []) ≠ some (Py.list [Py.str (("*").toList)]) ∧
    dictGet (parse_frontmatter
        (build_rule_content (("d").toList) [("*").toList] true (("B").toList))).1
        (("alwaysApply").toList) = some (Py.str (("true").toList)) ∧
    (parse_frontmatter
        (build_rule_content (("d").toList) [("*").toList] true (("B").toList))).2.2 ≠ [] := by
  exact ⟨by decide, by decide, by decide, by decide⟩

/-- C3 witness: the amended round trip at a concrete clean description and
body. -/
theorem claimC3_witness :
    normalize_text (("Go style").toList) = ("Go style").toList ∧
    parse_frontmatter (build_rule_content (("Go style").toList) [] false
        (("\nBody text").toList)) =
      ([(descKey, Py.str (("Go style").toList)), ((("globs").toList), Py.list []),
        ((("alwaysApply").toList), Py.str (("false").toList))],
       stripLeadNL (("\nBody text").toList), []) := by
  refine ⟨by decide, ?_⟩
  exact claimC3_roundtrip (("Go style").toList) (("\nBody text").toList)
    (by decide) (by decide) (by decide) (by decide) (by decide) (by decide)

/-- C6 counterexample: for a body that itself ends with a newline the
emitted rule text ends with two newlines, not exactly one. -/
theorem claimC6_counterexample :
    ¬ endsWithOneNL (build_rule_content (("d").toList) [] false (("x\n").toList)) := by
  simp only [endsWithOneNL]
  decide

/-- C6 witness: the shape equality and the single trailing newline at a
concrete rule with one glob. -/
theorem claimC6_witness :
    (stripLeadNL (normalize_text (("Body").toList))).getLast? ≠ some '\n' ∧
    build_rule_content (("desc").toList) [("*.go").toList] true (("Body").toList) =
      ruleContentSpec (("desc").toList) [("*.go").toList] true (("Body").toList) ∧
    endsWithOneNL
      (build_rule_content (("desc").toList) [("*.go").toList] true (("Body").toList)) :=
  ⟨by decide,
    claimC6_rule_output_shape.1 (("desc").toList) [("*.go").toList] true (("Body").toList),
    claimC6_rule_output_shape.2 (("desc").toList) [("*.go").toList] true (("Body").toList)
      (by decide)⟩

/-- C8 witness: the empty batch exits 0, and a batch with one failing file
has a non-zero exit code. -/
theorem claimC8_witness :
    batch_exit_code fsDemoConvert [] = 0 ∧
    (batch_exit_code fsDemoConvert [("bad.agent.md").toList] ≠ 0 ↔
      ∃ r ∈ [("bad.agent.md").toList].map fsDemoConvert, r.success = false) :=
  ⟨(claimC8_exit_status fsDemoConvert []).2.2.1 rfl,
    (claimC8_exit_status fsDemoConvert [("bad.agent.md").toList]).2.1⟩

end AIConfig
